import Mathlib

/-!
# XES to CSV conversion (`convert.go`, package `xes`)

A shallow embedding of `GetXESColumn`, `ConvertXESToCSV`, `indexOf` and
`GetFileColumns`, followed by the properties proved about them.

Conventions of the embedding:

* a Go `string` is a Lean `String` (the text is taken to be valid UTF-8, which is
  what the XML decoder delivers); a Go `[]string` is a `List String`, `nil` and the
  empty slice both being `[]`;
* a Go `error` is an `Option String`, `none` standing for `nil`;
* a run-time panic (index out of range) is an explicit outcome;
* the outcome of every call into the operating system is read from an environment
  (`Env`), so that each output step can fail independently;
* the order in which `range` visits a Go map is not fixed by the language, so it is
  a parameter (`MapRange`) of the function that ranges over a map;
* an `io.Reader` is the text it delivers together with the error that ends it
  (`Stream`); the loops of the CSV reader are bounded by the length of that text, and
  `Read_isSome` shows the bound is never reached.
-/

namespace Xes

/-! ## Strings -/

/-- Go `unicode.IsSpace`: the Unicode White_Space characters. -/
def isSpace (c : Char) : Bool :=
  c = '\t' || c = '\n' || c.val = 0x0B || c.val = 0x0C || c = '\r' || c = ' ' ||
  c.val = 0x85 || c.val = 0xA0 || c.val = 0x1680 ||
  (0x2000 ≤ c.val && c.val ≤ 0x200A) ||
  c.val = 0x2028 || c.val = 0x2029 || c.val = 0x202F || c.val = 0x205F || c.val = 0x3000

/-- Characters of a text with the leading and the trailing white space removed. -/
def trimSpaceChars (cs : List Char) : List Char :=
  ((cs.dropWhile isSpace).reverse.dropWhile isSpace).reverse

/-- Go `strings.TrimSpace`. -/
def TrimSpace (s : String) : String :=
  ⟨trimSpaceChars s.data⟩

/-! ## Data model (lines 13-41) -/

/-- Go `StringAttribute`: a string attribute of a trace or of an event. -/
structure StringAttribute where
  Key : String
  Value : String
deriving DecidableEq, Repr

/-- Go `DateAttribute`: a date attribute of an event, its value kept as text. -/
structure DateAttribute where
  Key : String
  Value : String
deriving DecidableEq, Repr

/-- Go `Event`. -/
structure Event where
  StringAttributes : List StringAttribute
  DateAttributes : List DateAttribute
deriving DecidableEq, Repr

/-- Go `Trace`. -/
structure Trace where
  Event : List Event
  StringAttributes : List StringAttribute
deriving DecidableEq, Repr

/-- Go `XES`: the parsed document. -/
structure XES where
  Trace : List Trace
deriving DecidableEq, Repr

/-! ## Go maps -/

/-- A Go `map[string]struct{}`: the set of its keys, kept as a duplicate-free list.
The order of the list is a representation only; what `range` yields is decided by a
`MapRange`. -/
abbrev KeyMap := List String

/-- The assignment `keyMap[k] = struct{}{}`. -/
def KeyMap.store (m : KeyMap) (k : String) : KeyMap :=
  if k ∈ m then m else m ++ [k]

/-- The order in which `for key := range keyMap` visits the keys of a map. Go leaves
it unspecified: every enumeration of the key set, each key once, is allowed. -/
structure MapRange where
  visit : KeyMap → List String
  perm : ∀ m : KeyMap, (visit m).Perm m

/-- The enumeration that visits the keys in the order they were first stored. -/
def MapRange.stored : MapRange where
  visit := fun m => m
  perm := fun m => List.Perm.refl m

/-- The enumeration that visits the keys in the opposite order. -/
def MapRange.backwards : MapRange where
  visit := fun m => m.reverse
  perm := fun m => List.reverse_perm m

/-! ## `GetXESColumn` (lines 44-91) -/

/-- Lines 69-74: the two attribute loops over one event. -/
def scanEvent (keyMap : KeyMap) (event : Event) : KeyMap :=
  let keyMap := event.StringAttributes.foldl (fun m stringAttr => m.store stringAttr.Key) keyMap
  event.DateAttributes.foldl (fun m dateAttr => m.store dateAttr.Key) keyMap

/-- Lines 68-75: the loop over the events of one trace. -/
def scanTrace (keyMap : KeyMap) (trace : Trace) : KeyMap :=
  trace.Event.foldl scanEvent keyMap

/-- Lines 66-76: `keyMap` after the loop over all traces. -/
def scanKeys (xes : XES) : KeyMap :=
  xes.Trace.foldl scanTrace []

/-- Lines 85-89: the header built from `keys`. -/
def buildHeader (keys : List String) : List String :=
  keys.foldl (fun header key => header ++ [TrimSpace key]) [] ++ ["case:concept:name"]

/-- What `GetXESColumn` returns: `header, keys, xes, err`. -/
structure Columns where
  header : List String
  keys : List String
  xes : XES
  err : Option String
deriving DecidableEq, Repr

/-- Go `GetXESColumn`. The argument `decoded` is the result of opening the file and
decoding its XML (lines 46-63): the parsed document, or the error of whichever of the
two steps failed. -/
def GetXESColumn (range : MapRange) (decoded : Except String XES) : Columns :=
  match decoded with
  | .error err => ⟨[], [], ⟨[]⟩, some err⟩
  | .ok xes =>
    let keyMap := scanKeys xes
    let keys := range.visit keyMap
    let header := buildHeader keys
    ⟨header, keys, xes, none⟩

/-! ## `indexOf` (lines 148-155) -/

/-- The loop of `indexOf`, `i` being the index of the head of the remaining slice. -/
def indexOfFrom (i : Nat) : List String → String → Int
  | [], _ => -1
  | s :: rest, str => if s = str then (i : Int) else indexOfFrom (i + 1) rest str

/-- Go `indexOf`: the index of the first element equal to `str`, or `-1`. -/
def indexOf (slice : List String) (str : String) : Int :=
  indexOfFrom 0 slice str

/-! ## `ConvertXESToCSV` (lines 94-145) -/

/-- The assignment `record[index] = value`; `none` is the panic of an index out of
range. -/
def setCell (record : List String) (index : Int) (value : String) : Option (List String) :=
  if 0 ≤ index ∧ index < record.length then some (record.set index.toNat value) else none

/-- Lines 126-129 (and 132-135): look the key up and fill its cell. -/
def putAttr (keys : List String) (record : List String) (key value : String) :
    Option (List String) :=
  let index := indexOf keys key
  if index ≠ -1 then setCell record index (TrimSpace value) else some record

/-- Lines 124-137: the record built for one event of a trace; `none` is a panic. -/
def buildRecord (keys : List String) (trace : Trace) (event : Event) : Option (List String) := do
  let record := List.replicate (keys.length + 1) ""
  let record ← event.StringAttributes.foldlM
    (fun r stringAttr => putAttr keys r stringAttr.Key stringAttr.Value) record
  let record ← event.DateAttributes.foldlM
    (fun r dateAttr => putAttr keys r dateAttr.Key dateAttr.Value) record
  let first ← trace.StringAttributes.get? 0
  setCell record keys.length (TrimSpace first.Value)

/-- The outcome of every output step of one call of `ConvertXESToCSV`: for each
step the error it returns, `none` when it succeeds. -/
structure Env where
  /-- Error of `os.Create(csvFilePath)`. -/
  create : Option String
  /-- Error of `csvFile.WriteString`, which writes the byte-order mark. -/
  writeString : Option String
  /-- Error of the `n`-th call of `writer.Write`, the header row being call `0`. -/
  write : Nat → Option String
  /-- The error met by the deferred `writer.Flush()`, which `Flush` does not return. -/
  flush : Option String

/-- The environment in which every output step succeeds. -/
def Env.healthy : Env := ⟨none, none, fun _ => none, none⟩

/-- How a call ends. -/
inductive Outcome where
  /-- A normal return with this error value (`none` is `nil`). -/
  | returned (err : Option String)
  /-- A run-time panic: index out of range. -/
  | panicked
deriving DecidableEq, Repr

/-- One call of `ConvertXESToCSV`: how it ended, the records that `writer.Write`
accepted (in call order, the header row first), and the error left in the writer by the
deferred `Flush`. -/
structure Run where
  outcome : Outcome
  records : List (List String)
  flushError : Option String
deriving DecidableEq, Repr

/-- Lines 123-142: the loop over the events of one trace. `errs` is the variable of
that name, `records` the records written so far; `.error` is an exit from the
function, `.ok` the records written when the loop ends. -/
def eventLoop (env : Env) (errs : Option String) (keys : List String) (trace : Trace) :
    List Event → List (List String) → Except Run (List (List String))
  | [], records => .ok records
  | event :: rest, records =>
    match buildRecord keys trace event with
    | none => .error ⟨.panicked, records, env.flush⟩
    | some record =>
      match env.write records.length with
      | some _ => .error ⟨.returned errs, records, env.flush⟩
      | none => eventLoop env errs keys trace rest (records ++ [record])

/-- Lines 122-143: the loop over the traces. -/
def traceLoop (env : Env) (errs : Option String) (keys : List String) :
    List Trace → List (List String) → Except Run (List (List String))
  | [], records => .ok records
  | trace :: rest, records =>
    match eventLoop env errs keys trace trace.Event records with
    | .error run => .error run
    | .ok records => traceLoop env errs keys rest records

/-- Go `ConvertXESToCSV`. The file path is part of the environment. -/
def ConvertXESToCSV (env : Env) (header keys : List String) (xes : XES) : Run :=
  match env.create with
  | some e => ⟨.returned (some e), [], none⟩
  | none =>
    let errs := env.writeString
    if errs ≠ none then ⟨.returned errs, [], none⟩
    else
      match env.write 0 with
      | some _ => ⟨.returned errs, [], env.flush⟩
      | none =>
        match traceLoop env errs keys xes.Trace [header] with
        | .error run => run
        | .ok records => ⟨.returned none, records, env.flush⟩

/-! ## `encoding/csv` and `strings.TrimLeft` (Go standard library)

The writer is taken with its default settings (`Comma` is `,`, `UseCRLF` is false),
the reader as `GetFileColumns` configures it (`Comma` is `,`, `LazyQuotes` is true,
no comment character, `TrimLeadingSpace` false, `FieldsPerRecord` 0). Text is a list
of characters. -/

/-- Go `(*csv.Writer).fieldNeedsQuotes`. -/
def fieldNeedsQuotes (field : List Char) : Bool :=
  if field = [] then false
  else if field = ['\\', '.'] then true
  else if field.any (fun c => c = '\n' || c = '\r' || c = '"' || c = ',') then true
  else
    match field with
    | [] => false
    | r1 :: _ => isSpace r1

/-- The characters `(*csv.Writer).Write` emits for one character of a quoted field:
a quote is doubled, everything else (carriage return and line feed included) is
copied. -/
def quoteChar (c : Char) : List Char :=
  if c = '"' then ['"', '"'] else [c]

/-- The text `(*csv.Writer).Write` emits for one field. -/
def writeField (field : List Char) : List Char :=
  if fieldNeedsQuotes field then '"' :: field.flatMap quoteChar ++ ['"'] else field

/-- The loop of `(*csv.Writer).Write` from field number `n` on, and the final line
feed. -/
def writeFieldsFrom (n : Nat) : List String → List Char
  | [] => ['\n']
  | field :: rest =>
    (if n > 0 then [','] else []) ++ writeField field.data ++ writeFieldsFrom (n + 1) rest

/-- Go `(*csv.Writer).Write`: the text written for one record. -/
def Writer.Write (record : List String) : List Char :=
  writeFieldsFrom 0 record

/-- The contents of the file written by `ConvertXESToCSV` once `records` have been
written and flushed: the byte-order mark (`EF BB BF`, the character U+FEFF) and the
text of each record. -/
def fileContents (records : List (List String)) : List Char :=
  '\uFEFF' :: records.flatMap Writer.Write

/-- Go `strings.TrimLeft`: `s` without its leading characters that are in `cutset`. -/
def TrimLeft (s : String) (cutset : String) : String :=
  ⟨s.data.dropWhile (fun c => decide (c ∈ cutset.data))⟩

/-- The error of a read: `io.EOF` or a failure of the underlying reader. -/
inductive ReadErr where
  | eof
  | failed (msg : String)
deriving DecidableEq, Repr

/-- An `io.Reader`: the text it delivers and what it returns once the text is
consumed, `io.EOF` (`none`) or an error. -/
structure Stream where
  data : List Char
  fail : Option String
deriving DecidableEq, Repr

/-- Go `lengthNL`: `1` if the line ends in a line feed, else `0`. -/
def lengthNL (b : List Char) : Nat :=
  if b.getLast? = some '\n' then 1 else 0

/-- The text up to and including the first line feed, and the text after it; `none`
when there is no line feed. -/
def splitLine : List Char → Option (List Char × List Char)
  | [] => none
  | c :: cs =>
    if c = '\n' then some (['\n'], cs)
    else
      match splitLine cs with
      | none => none
      | some (line, rest) => some (c :: line, rest)

/-- The end of `readLine`: a line ending in carriage return, line feed is made to
end in a line feed only. -/
def normalizeNL (line : List Char) : List Char :=
  if 2 ≤ line.length ∧ line.drop (line.length - 2) = ['\r', '\n'] then
    line.take (line.length - 2) ++ ['\n']
  else line

/-- Go `(*csv.Reader).readLine`: the next line, the error, and the reader after it. -/
def readLine (r : Stream) : List Char × Option ReadErr × Stream :=
  match splitLine r.data with
  | some (line, rest) => (normalizeNL line, none, ⟨rest, r.fail⟩)
  | none =>
    match r.fail with
    | some e => (normalizeNL r.data, some (.failed e), ⟨[], r.fail⟩)
    | none =>
      if r.data ≠ [] then
        (normalizeNL (if r.data.getLast? = some '\r' then r.data.dropLast else r.data), none,
          ⟨[], r.fail⟩)
      else ([], some .eof, ⟨[], r.fail⟩)

/-- The delimiter `csv.NewReader` sets. -/
def Reader.Comma : Char := ','

/-- What `readRecord` returns, and the reader after it. -/
structure Parsed where
  fields : List (List Char)
  err : Option ReadErr
  r : Stream
deriving DecidableEq, Repr

/-- The variables of the `parseField` loop of `readRecord`. `fields` are the fields
completed so far; `quoted` is `none` at the top of the loop and, inside the loop of a
quoted field, the text of that field collected so far. -/
structure ParseState where
  line : List Char
  r : Stream
  errRead : Option ReadErr
  fields : List (List Char)
  quoted : Option (List Char)
deriving DecidableEq, Repr

/-- One iteration of the `parseField` loop or of the loop of a quoted field: the next
state, or the record when the loop is left. -/
def parseStep (s : ParseState) : ParseState ⊕ Parsed :=
  match s.quoted with
  | none =>
    if s.line.head? ≠ some '"' then
      let i := s.line.indexOf Reader.Comma
      if i < s.line.length then
        .inl { s with line := s.line.drop (i + 1), fields := s.fields ++ [s.line.take i] }
      else
        .inr ⟨s.fields ++ [s.line.take (s.line.length - lengthNL s.line)], s.errRead, s.r⟩
    else
      .inl { s with line := s.line.drop 1, quoted := some [] }
  | some buf =>
    let i := s.line.indexOf '"'
    if i < s.line.length then
      let buf := buf ++ s.line.take i
      let line := s.line.drop (i + 1)
      if line.head? = some '"' then
        .inl { s with line := line.drop 1, quoted := some (buf ++ ['"']) }
      else if line.head? = some Reader.Comma then
        .inl { s with line := line.drop 1, fields := s.fields ++ [buf], quoted := none }
      else if lengthNL line = line.length then
        .inr ⟨s.fields ++ [buf], s.errRead, s.r⟩
      else
        .inl { s with line := line, quoted := some (buf ++ ['"']) }
    else if 0 < s.line.length then
      if s.errRead ≠ none then
        .inr ⟨s.fields, s.errRead, s.r⟩
      else
        let (line, errRead, r) := readLine s.r
        .inl { s with line := line, r := r,
                      errRead := if errRead = some .eof then none else errRead,
                      quoted := some (buf ++ s.line) }
    else
      .inr ⟨s.fields ++ [buf], s.errRead, s.r⟩

/-- The `parseField` loop run for at most `fuel` iterations. -/
def parseLoop : Nat → ParseState → Option Parsed
  | 0, _ => none
  | fuel + 1, s =>
    match parseStep s with
    | .inl s => parseLoop fuel s
    | .inr parsed => some parsed

/-- The first loop of `readRecord`, which skips empty lines, run for at most `fuel`
iterations: the first line that is not empty, with the error of its read. -/
def skipEmptyLines : Nat → Stream → Option (List Char × Option ReadErr × Stream)
  | 0, _ => none
  | fuel + 1, r =>
    match readLine r with
    | (line, errRead, r) =>
      if errRead = none ∧ line.length = lengthNL line then skipEmptyLines fuel r
      else some (line, errRead, r)

/-- Go `(*csv.Reader).readRecord` with its loops bounded by `fuel`. -/
def readRecord (fuel : Nat) (r : Stream) : Option Parsed :=
  match skipEmptyLines fuel r with
  | none => none
  | some (line, errRead, r) =>
    if errRead = some .eof then some ⟨[], errRead, r⟩
    else parseLoop fuel ⟨line, r, errRead, [], none⟩

/-- Go `(*csv.Reader).Read`: every iteration of the loops consumes a character, so
the length of the text bounds their number. `none` would be the loops running out of
that bound, which `Read_isSome` excludes. -/
def Reader.Read (r : Stream) : Option Parsed :=
  readRecord (r.data.length + 2) r

/-! ## `GetFileColumns` (lines 158-173) -/

/-- What `GetFileColumns` returns: `columns, delimiter, errs`. -/
structure FileColumns where
  columns : List String
  delimiter : String
  err : Option ReadErr
deriving DecidableEq, Repr

/-- Go `GetFileColumns`. -/
def GetFileColumns (file : Stream) : Option FileColumns :=
  match Reader.Read file with
  | none => none
  | some parsed =>
    if parsed.err ≠ none then some ⟨[], "", parsed.err⟩
    else
      some ⟨parsed.fields.map (fun col => TrimLeft ⟨col⟩ "\uFEFF "),
        String.singleton Reader.Comma, none⟩

/-! ## Notions used to state the properties -/

/-- The attributes an event carries, as (key, value) pairs in the order the loops
of lines 125-136 visit them: the string attributes, then the date attributes. -/
def Event.attrs (e : Event) : List (String × String) :=
  e.StringAttributes.map (fun a => (a.Key, a.Value)) ++
    e.DateAttributes.map (fun a => (a.Key, a.Value))

/-- Every attribute key met when the traces are traversed in order, the events of a
trace in order, and the attributes of an event in the order of `Event.attrs`. -/
def XES.eventKeys (xes : XES) : List String :=
  xes.Trace.flatMap (fun t => t.Event.flatMap (fun e => e.attrs.map Prod.fst))

/-- A sequence with only the first occurrence of each element kept. -/
def keepFirst : List String → List String
  | [] => []
  | k :: ks => k :: (keepFirst ks).filter (fun x => x ≠ k)

/-- The first-seen discovery order of the attribute keys of a document. -/
def discoveryOrder (xes : XES) : List String :=
  keepFirst xes.eventKeys

/-- The number of events of a document, summed over its traces. -/
def totalEvents (xes : XES) : Nat :=
  (xes.Trace.map (fun t => t.Event.length)).sum

/-- The effect of `putAttr` on a record wide enough for every index of `keys`. -/
def putCell (keys : List String) (record : List String) (a : String × String) : List String :=
  if a.1 ∈ keys then record.set (keys.indexOf a.1) (TrimSpace a.2) else record

/-- The scenario of the specification: one trace, `concept:name` = `Case1`, with
event A (`activity` = `submit`) and event B (date `timestamp` = `2024-01-01`). -/
def scenarioDoc : XES :=
  ⟨[⟨[⟨[⟨"activity", "submit"⟩], []⟩, ⟨[], [⟨"timestamp", "2024-01-01"⟩]⟩],
     [⟨"concept:name", "Case1"⟩]⟩]⟩

/-- An event that carries the key `a` twice. -/
def twiceEvent : Event :=
  ⟨[⟨"a", "1"⟩, ⟨"a", "2"⟩], []⟩

/-- A trace with one string attribute whose only event is `twiceEvent`. -/
def twiceTrace : Trace :=
  ⟨[twiceEvent], [⟨"concept:name", "c1"⟩]⟩

/-- The document made of `twiceTrace`. -/
def twiceDoc : XES :=
  ⟨[twiceTrace]⟩

/-- The records `ConvertXESToCSV` builds for the events of a document, in the order
of its loops: traces in order, the events of each trace in order. -/
def dataRows (keys : List String) (xes : XES) : List (List String) :=
  xes.Trace.flatMap (fun t => t.Event.filterMap (buildRecord keys t))

/-- A document with two events whose keys are discovered in the order `a`, `b`. -/
def twoKeyDoc : XES :=
  ⟨[⟨[⟨[⟨"a", "1"⟩], []⟩, ⟨[⟨"b", "2"⟩], []⟩], [⟨"concept:name", "c1"⟩]⟩]⟩

/-- An environment in which writing the header row fails and nothing else does. -/
def Env.headerWriteFails : Env :=
  ⟨none, none, fun n => if n = 0 then some "write: no space left on device" else none, none⟩

/-- An environment in which writing the first data row fails and nothing else does. -/
def Env.rowWriteFails : Env :=
  ⟨none, none, fun n => if n = 1 then some "write: no space left on device" else none, none⟩

/-- An environment in which only the deferred flush fails. -/
def Env.flushFails : Env :=
  ⟨none, none, fun _ => none, some "write: no space left on device"⟩

/-- An environment in which creating the file fails. -/
def Env.createFails : Env :=
  ⟨some "open: permission denied", none, fun _ => none, none⟩

/-- An environment in which writing the byte-order mark fails. -/
def Env.bomWriteFails : Env :=
  ⟨none, some "write: no space left on device", fun _ => none, none⟩

/-- A document whose only trace has one event and no string attribute. -/
def noCaseDoc : XES :=
  ⟨[⟨[⟨[⟨"activity", "submit"⟩], []⟩], []⟩]⟩

/-- A document whose only trace has no event and no string attribute. -/
def emptyTraceDoc : XES :=
  ⟨[⟨[], []⟩]⟩

/-- The pipeline `GetXESColumn` followed by `ConvertXESToCSV` on a decoded document. -/
def convertDocument (range : MapRange) (env : Env) (xes : XES) : Run :=
  let columns := GetXESColumn range (.ok xes)
  ConvertXESToCSV env columns.header columns.keys columns.xes

/-! ## Notions used to state the properties of the CSV layer -/

/-- The first line of a text, its line feed included (added when the text has none). -/
def lineOf (text : List Char) : List Char :=
  text.takeWhile (fun c => c != '\n') ++ ['\n']

/-- The text after the first line feed. -/
def restOf (text : List Char) : List Char :=
  (text.dropWhile (fun c => c != '\n')).drop 1

/-- Whether a text contains a carriage return immediately followed by a line feed. -/
def hasCRLF : List Char → Bool
  | [] => false
  | c :: cs => (c == '\r' && cs.head? == some '\n') || hasCRLF cs

/-- The number of characters the reader still has to consume in a state of the
`parseField` loop. -/
def ParseState.size (s : ParseState) : Nat :=
  s.line.length + s.r.data.length

/-- The loop started in state `s` leaves with the record `p` after some number of
iterations. -/
def Reaches (s : ParseState) (p : Parsed) : Prop :=
  ∃ n, parseLoop n s = some p

/-- The header of a document whose only attribute key needs quoting. -/
def commaKeyDoc : XES :=
  ⟨[⟨[⟨[⟨"a,b", "1"⟩], []⟩], [⟨"concept:name", "c1"⟩]⟩]⟩

/-- The state of the `parseField` loop when the reader, no read having failed, holds
the first line of `text` and has `rest` after `text` still to read. -/
def stateAt (text rest : List Char) (fail : Option String) (fields : List (List Char))
    (quoted : Option (List Char)) : ParseState :=
  ⟨lineOf text, ⟨restOf text ++ rest, fail⟩, none, fields, quoted⟩

/-- A text the reader takes as one unquoted field: it does not start with a quote and
holds neither a comma nor a line feed. -/
def Plain (u : List Char) : Prop :=
  u.head? ≠ some '"' ∧ ∀ c ∈ u, c ≠ ',' ∧ c ≠ '\n'

/-- A document whose only attribute key starts with the character U+FEFF. -/
def bomKeyDoc : XES :=
  ⟨[⟨[⟨[⟨"\uFEFFx", "1"⟩], []⟩], [⟨"concept:name", "c1"⟩]⟩]⟩

/-- A document whose second attribute key holds a carriage return followed by a line
feed. -/
def crlfKeyDoc : XES :=
  ⟨[⟨[⟨[⟨"a", "1"⟩, ⟨"b\r\nc", "2"⟩], []⟩], [⟨"concept:name", "c1"⟩]⟩]⟩

/-! ## Notions used to state the further properties -/

/-- An environment in which no output step of `ConvertXESToCSV` fails. -/
def Env.succeeds (env : Env) : Prop :=
  env.create = none ∧ env.writeString = none ∧ (∀ n, env.write n = none) ∧ env.flush = none

/-- The events of a document with their traces, in the order of the loops of
`ConvertXESToCSV`: traces in document order, the events of a trace in their order. -/
def allEvents (xes : XES) : List (Trace × Event) :=
  xes.Trace.flatMap (fun t => t.Event.map (fun e => (t, e)))

/-- The document without traces. -/
def emptyDoc : XES :=
  ⟨[]⟩

/-- A document whose two attribute keys, `a` and ` a`, differ by a leading space. -/
def spaceKeyDoc : XES :=
  ⟨[⟨[⟨[⟨"a", "1"⟩, ⟨" a", "2"⟩], []⟩], [⟨"concept:name", "c1"⟩]⟩]⟩

/-- Whether a text holds nothing but empty lines: line feeds, each possibly preceded
by one carriage return, and possibly a last carriage return before the end of the
text. The reader skips such lines. -/
def onlyEmptyLines : List Char → Bool
  | [] => true
  | c :: rest =>
    if c = '\n' then onlyEmptyLines rest
    else if c = '\r' then
      match rest with
      | [] => true
      | d :: rest2 => if d = '\n' then onlyEmptyLines rest2 else false
    else false

/-- The characters `GetFileColumns` strips from the front of a column name: the
cutset of line 169, U+FEFF and the space. -/
def inCutset (c : Char) : Bool :=
  c = '\uFEFF' || c = ' '

/-! # Theorems -/

/-! ## `indexOf` -/

theorem indexOfFrom_eq (l : List String) (s : String) (i : Nat) :
    indexOfFrom i l s = if s ∈ l then ((i + l.indexOf s : Nat) : Int) else -1 := by
  induction l generalizing i with
  | nil => simp [indexOfFrom]
  | cons a l ih =>
    by_cases h : a = s
    · subst h
      simp [indexOfFrom]
    · have h2 : ¬ s = a := fun e => h e.symm
      simp only [indexOfFrom, if_neg h, ih, List.mem_cons, h2, false_or,
        List.indexOf_cons_ne _ h]
      split
      · push_cast
        omega
      · rfl

theorem indexOf_of_mem {l : List String} {s : String} (h : s ∈ l) :
    indexOf l s = ((l.indexOf s : Nat) : Int) := by
  simp [indexOf, indexOfFrom_eq, h]

theorem indexOf_of_not_mem {l : List String} {s : String} (h : s ∉ l) :
    indexOf l s = -1 := by
  simp [indexOf, indexOfFrom_eq, h]

theorem indexOf_eq_nat {l : List String} {s : String} {i : Nat}
    (h : indexOf l s = (i : Int)) : s ∈ l ∧ l.indexOf s = i := by
  by_cases hm : s ∈ l
  · rw [indexOf_of_mem hm] at h
    exact ⟨hm, by exact_mod_cast h⟩
  · rw [indexOf_of_not_mem hm] at h
    omega

/-! ## Row construction -/

theorem putAttr_eq (keys record : List String) (k v : String)
    (hlen : record.length = keys.length + 1) :
    putAttr keys record k v = some (putCell keys record (k, v)) := by
  unfold putAttr putCell
  by_cases hm : k ∈ keys
  · have hlt : keys.indexOf k < keys.length := List.indexOf_lt_length.2 hm
    simp only [indexOf_of_mem hm, setCell, hm, if_true]
    rw [if_pos (by omega), if_pos (by constructor <;> omega)]
    simp
  · simp [indexOf_of_not_mem hm, hm]

theorem putCell_length (keys record : List String) (a : String × String) :
    (putCell keys record a).length = record.length := by
  unfold putCell
  split <;> simp

theorem foldl_putCell_length (keys : List String) (attrs : List (String × String))
    (record : List String) :
    (attrs.foldl (putCell keys) record).length = record.length := by
  induction attrs generalizing record with
  | nil => rfl
  | cons a attrs ih => rw [List.foldl_cons, ih, putCell_length]

theorem foldlM_putAttr (keys : List String) (attrs : List (String × String))
    (record : List String) (hlen : record.length = keys.length + 1) :
    attrs.foldlM (fun r a => putAttr keys r a.1 a.2) record
      = some (attrs.foldl (putCell keys) record) := by
  induction attrs generalizing record with
  | nil => rfl
  | cons a attrs ih =>
    rw [List.foldlM_cons, putAttr_eq keys record a.1 a.2 hlen]
    simp only [Option.some_bind, List.foldl_cons]
    exact ih _ (by rw [putCell_length, hlen])

theorem buildRecord_eq (keys : List String) (t : Trace) (e : Event)
    (first : StringAttribute) (others : List StringAttribute)
    (ht : t.StringAttributes = first :: others) :
    buildRecord keys t e
      = some ((e.attrs.foldl (putCell keys) (List.replicate (keys.length + 1) "")).set
          keys.length (TrimSpace first.Value)) := by
  have h0 : (List.replicate (keys.length + 1) "").length = keys.length + 1 := by simp
  have h1 := foldlM_putAttr keys (e.StringAttributes.map (fun a => (a.Key, a.Value))) _ h0
  have h2 := foldlM_putAttr keys (e.DateAttributes.map (fun a => (a.Key, a.Value)))
    ((e.StringAttributes.map (fun a => (a.Key, a.Value))).foldl (putCell keys)
      (List.replicate (keys.length + 1) ""))
    (by rw [foldl_putCell_length, h0])
  rw [List.foldlM_map] at h1 h2
  unfold buildRecord
  simp only [h1, h2, ht, Option.bind_eq_bind, Option.some_bind, List.get?_cons_zero, setCell,
    Event.attrs, List.foldl_append]
  rw [if_pos]
  · simp
  · rw [foldl_putCell_length, foldl_putCell_length, h0]
    constructor <;> omega

theorem buildRecord_none (keys : List String) (t : Trace) (e : Event)
    (ht : t.StringAttributes = []) : buildRecord keys t e = none := by
  have h0 : (List.replicate (keys.length + 1) "").length = keys.length + 1 := by simp
  have h1 := foldlM_putAttr keys (e.StringAttributes.map (fun a => (a.Key, a.Value))) _ h0
  have h2 := foldlM_putAttr keys (e.DateAttributes.map (fun a => (a.Key, a.Value)))
    ((e.StringAttributes.map (fun a => (a.Key, a.Value))).foldl (putCell keys)
      (List.replicate (keys.length + 1) ""))
    (by rw [foldl_putCell_length, h0])
  rw [List.foldlM_map] at h1 h2
  unfold buildRecord
  simp [h1, h2, ht]

theorem foldl_putCell_other (keys : List String) (attrs : List (String × String))
    (record : List String) (i : Nat)
    (h : ∀ a ∈ attrs, a.1 ∈ keys → keys.indexOf a.1 ≠ i) :
    (attrs.foldl (putCell keys) record)[i]? = record[i]? := by
  induction attrs generalizing record with
  | nil => rfl
  | cons a attrs ih =>
    rw [List.foldl_cons, ih _ (fun b hb => h b (List.mem_cons_of_mem _ hb))]
    unfold putCell
    split
    · rename_i hm
      rw [List.getElem?_set_ne (h a (List.mem_cons_self _ _) hm)]
    · rfl

theorem foldl_putCell_last (keys : List String) (pre post : List (String × String))
    (k v : String) (record : List String) (hlen : record.length = keys.length + 1)
    (hk : k ∈ keys) (hpost : ∀ a ∈ post, a.1 ≠ k) :
    ((pre ++ (k, v) :: post).foldl (putCell keys) record)[keys.indexOf k]?
      = some (TrimSpace v) := by
  rw [List.foldl_append, List.foldl_cons, foldl_putCell_other]
  · have hlt : keys.indexOf k < keys.length := List.indexOf_lt_length.2 hk
    simp only [putCell, hk, if_true]
    rw [List.getElem?_set_self]
    rw [foldl_putCell_length]
    omega
  · intro a ha hm heq
    apply hpost a ha
    have h1 := List.getElem_indexOf (List.indexOf_lt_length.2 hm)
    have h2 := List.getElem_indexOf (List.indexOf_lt_length.2 hk)
    rw [← h1, ← h2]
    simp only [heq]

/-! ## Key discovery -/

theorem mem_keepFirst (l : List String) (k : String) : k ∈ keepFirst l ↔ k ∈ l := by
  induction l with
  | nil => simp [keepFirst]
  | cons a l ih =>
    simp only [keepFirst, List.mem_cons, List.mem_filter, ih, decide_eq_true_eq]
    by_cases h : k = a <;> simp [h]

theorem nodup_keepFirst (l : List String) : (keepFirst l).Nodup := by
  induction l with
  | nil => simp [keepFirst]
  | cons a l ih =>
    simp only [keepFirst, List.nodup_cons, List.mem_filter, decide_eq_true_eq]
    exact ⟨fun h => h.2 rfl, ih.filter _⟩

theorem foldl_store (l : List String) (m : KeyMap) :
    l.foldl KeyMap.store m = m ++ (keepFirst l).filter (fun k => decide (k ∉ m)) := by
  induction l generalizing m with
  | nil => simp [keepFirst]
  | cons a l ih =>
    rw [List.foldl_cons, ih]
    unfold KeyMap.store
    by_cases h : a ∈ m
    · rw [if_pos h]
      simp only [keepFirst, List.filter_cons, h, not_true_eq_false, decide_False,
        Bool.false_eq_true, if_false, List.filter_filter]
      congr 1
      apply List.filter_congr
      intro x _
      by_cases hx : x ∈ m
      · simp [hx]
      · have : x ≠ a := fun e => hx (e ▸ h)
        simp [hx, this]
    · rw [if_neg h]
      simp only [keepFirst, List.filter_cons, h, not_false_eq_true, decide_True, if_true,
        List.filter_filter, List.append_assoc, List.singleton_append]
      congr 2
      apply List.filter_congr
      intro x _
      by_cases hx : x ∈ m <;> by_cases hxa : x = a <;> simp [hx, hxa]

theorem scanEvent_eq (m : KeyMap) (e : Event) :
    scanEvent m e = (e.attrs.map Prod.fst).foldl KeyMap.store m := by
  simp [scanEvent, Event.attrs, List.foldl_append, List.foldl_map]

theorem scanTrace_eq (m : KeyMap) (t : Trace) :
    scanTrace m t = (t.Event.flatMap (fun e => e.attrs.map Prod.fst)).foldl KeyMap.store m := by
  unfold scanTrace
  induction t.Event generalizing m with
  | nil => rfl
  | cons e es ih =>
    rw [List.foldl_cons, ih, List.flatMap_cons, List.foldl_append, scanEvent_eq]

theorem scanKeys_eq_foldl (xes : XES) :
    scanKeys xes = xes.eventKeys.foldl KeyMap.store [] := by
  unfold scanKeys XES.eventKeys
  generalize ([] : KeyMap) = m
  induction xes.Trace generalizing m with
  | nil => rfl
  | cons t ts ih =>
    rw [List.foldl_cons, ih, List.flatMap_cons, List.foldl_append, scanTrace_eq]

theorem scanKeys_eq (xes : XES) : scanKeys xes = discoveryOrder xes := by
  rw [scanKeys_eq_foldl, foldl_store]
  simp [discoveryOrder]

theorem mem_eventKeys (xes : XES) (k : String) :
    k ∈ xes.eventKeys ↔
      ∃ t ∈ xes.Trace, ∃ e ∈ t.Event,
        (∃ a ∈ e.StringAttributes, a.Key = k) ∨ (∃ a ∈ e.DateAttributes, a.Key = k) := by
  simp only [XES.eventKeys, Event.attrs, List.mem_flatMap, List.mem_map, List.mem_append,
    Prod.exists, Prod.mk.injEq, exists_and_right, exists_eq_right]
  constructor
  · rintro ⟨t, ht, e, he, v, hv⟩
    refine ⟨t, ht, e, he, ?_⟩
    rcases hv with ⟨a, ha, h1, _⟩ | ⟨a, ha, h1, _⟩
    · exact Or.inl ⟨a, ha, h1⟩
    · exact Or.inr ⟨a, ha, h1⟩
  · rintro ⟨t, ht, e, he, h⟩
    refine ⟨t, ht, e, he, ?_⟩
    rcases h with ⟨a, ha, h1⟩ | ⟨a, ha, h1⟩
    · exact ⟨a.Value, Or.inl ⟨a, ha, h1, rfl⟩⟩
    · exact ⟨a.Value, Or.inr ⟨a, ha, h1, rfl⟩⟩

theorem mem_keys_iff (range : MapRange) (xes : XES) (k : String) :
    k ∈ (GetXESColumn range (.ok xes)).keys ↔ k ∈ xes.eventKeys := by
  simp only [GetXESColumn]
  rw [(range.perm _).mem_iff, scanKeys_eq, discoveryOrder, mem_keepFirst]

theorem buildHeader_eq (keys : List String) :
    buildHeader keys = keys.map TrimSpace ++ ["case:concept:name"] := by
  unfold buildHeader
  congr 1
  suffices h : ∀ acc : List String,
      keys.foldl (fun header key => header ++ [TrimSpace key]) acc = acc ++ keys.map TrimSpace by
    simpa using h []
  induction keys with
  | nil => simp
  | cons k ks ih => intro acc; simp [ih]

/-! ## The loops of `ConvertXESToCSV` -/

theorem eventLoop_ok (env : Env) (errs : Option String) (keys : List String) (t : Trace)
    (hw : ∀ n, env.write n = none) (ht : t.StringAttributes ≠ [])
    (es : List Event) (records : List (List String)) :
    eventLoop env errs keys t es records
      = .ok (records ++ es.filterMap (buildRecord keys t)) := by
  obtain ⟨first, others, hfirst⟩ := List.exists_cons_of_ne_nil ht
  induction es generalizing records with
  | nil => simp [eventLoop]
  | cons e es ih =>
    have hb := buildRecord_eq keys t e first others hfirst
    simp only [eventLoop, hb, hw, List.filterMap_cons, ih]
    simp

theorem traceLoop_ok (env : Env) (errs : Option String) (keys : List String)
    (hw : ∀ n, env.write n = none) (ts : List Trace)
    (hts : ∀ t ∈ ts, t.StringAttributes ≠ []) (records : List (List String)) :
    traceLoop env errs keys ts records
      = .ok (records ++ ts.flatMap (fun t => t.Event.filterMap (buildRecord keys t))) := by
  induction ts generalizing records with
  | nil => simp [traceLoop]
  | cons t ts ih =>
    have ht := hts t (List.mem_cons_self _ _)
    simp only [traceLoop, eventLoop_ok env errs keys t hw ht,
      ih (fun u hu => hts u (List.mem_cons_of_mem _ hu)), List.flatMap_cons, List.append_assoc]

theorem convert_ok (env : Env) (header keys : List String) (xes : XES)
    (hvalid : ∀ t ∈ xes.Trace, t.StringAttributes ≠ [])
    (hc : env.create = none) (hb : env.writeString = none) (hw : ∀ n, env.write n = none) :
    ConvertXESToCSV env header keys xes
      = ⟨.returned none, header :: dataRows keys xes, env.flush⟩ := by
  simp [ConvertXESToCSV, hc, hb, hw, traceLoop_ok env none keys hw xes.Trace hvalid, dataRows]

theorem length_filterMap_buildRecord (keys : List String) (t : Trace)
    (ht : t.StringAttributes ≠ []) (es : List Event) :
    (es.filterMap (buildRecord keys t)).length = es.length := by
  obtain ⟨first, others, hfirst⟩ := List.exists_cons_of_ne_nil ht
  induction es with
  | nil => rfl
  | cons e es ih =>
    rw [List.filterMap_cons, buildRecord_eq keys t e first others hfirst]
    simp [ih]

theorem length_flatMap_rows (keys : List String) (ts : List Trace)
    (hts : ∀ t ∈ ts, t.StringAttributes ≠ []) :
    (ts.flatMap (fun t => t.Event.filterMap (buildRecord keys t))).length
      = (ts.map (fun t => t.Event.length)).sum := by
  induction ts with
  | nil => rfl
  | cons t ts ih =>
    rw [List.flatMap_cons, List.length_append, List.map_cons, List.sum_cons,
      length_filterMap_buildRecord keys t (hts t (List.mem_cons_self _ _)),
      ih (fun u hu => hts u (List.mem_cons_of_mem _ hu))]

theorem length_dataRows (keys : List String) (xes : XES)
    (hvalid : ∀ t ∈ xes.Trace, t.StringAttributes ≠ []) :
    (dataRows keys xes).length = totalEvents xes :=
  length_flatMap_rows keys xes.Trace hvalid

/-! ## Properties of the emitted rows -/

/-- C1, as amended. For a document in which every trace has a string attribute and
the keys returned by `GetXESColumn` (whatever the map order), the record built for an
event holds, at the position of `k` in `keys`, the trimmed value of the last attribute
of the event with key `k` (string attributes come before date attributes); a cell
other than the last whose key the event does not carry is the empty string. -/
theorem record_cell_holds_last_value (range : MapRange) (xes : XES)
    (hvalid : ∀ t ∈ xes.Trace, t.StringAttributes ≠ [])
    (t : Trace) (ht : t ∈ xes.Trace) (e : Event) (he : e ∈ t.Event) :
    ∃ record, buildRecord (GetXESColumn range (.ok xes)).keys t e = some record ∧
      (∀ pre post k v, e.attrs = pre ++ (k, v) :: post → (∀ a ∈ post, a.1 ≠ k) →
        ∃ i : Nat, indexOf (GetXESColumn range (.ok xes)).keys k = (i : Int) ∧
          (GetXESColumn range (.ok xes)).keys[i]? = some k ∧
          record[i]? = some (TrimSpace v)) ∧
      (∀ (i : Nat) (k : String), (GetXESColumn range (.ok xes)).keys[i]? = some k →
        (∀ a ∈ e.attrs, a.1 ≠ k) → record[i]? = some "") := by
  obtain ⟨first, others, hfirst⟩ := List.exists_cons_of_ne_nil (hvalid t ht)
  generalize hkeys : (GetXESColumn range (.ok xes)).keys = keys
  refine ⟨_, buildRecord_eq keys t e first others hfirst, ?_, ?_⟩
  · intro pre post k v hsplit hpost
    have hk : k ∈ keys := by
      rw [← hkeys, mem_keys_iff]
      simp only [XES.eventKeys, List.mem_flatMap, List.mem_map]
      exact ⟨t, ht, e, he, (k, v), by simp [hsplit], rfl⟩
    have hlt : keys.indexOf k < keys.length := List.indexOf_lt_length.2 hk
    refine ⟨keys.indexOf k, indexOf_of_mem hk, ?_, ?_⟩
    · rw [List.getElem?_eq_getElem hlt, List.getElem_indexOf]
    · rw [List.getElem?_set_ne (by omega), hsplit]
      exact foldl_putCell_last keys pre post k v _ (by simp) hk hpost
  · intro i k hik habsent
    obtain ⟨hlt, hget⟩ := List.getElem?_eq_some.1 hik
    rw [List.getElem?_set_ne (by omega), foldl_putCell_other]
    · rw [List.getElem?_replicate, if_pos (by omega)]
    · intro a ha hm heq
      apply habsent a ha
      rw [← hget]
      simp only [← heq]
      exact (List.getElem_indexOf (List.indexOf_lt_length.2 hm)).symm

/-- C1, witness: the amended statement at the document whose only event carries the
key `a` twice. -/
theorem record_cell_witness :
    (∀ t ∈ twiceDoc.Trace, t.StringAttributes ≠ []) ∧ twiceTrace ∈ twiceDoc.Trace ∧
      twiceEvent ∈ twiceTrace.Event ∧
      ∃ record,
        buildRecord (GetXESColumn MapRange.stored (.ok twiceDoc)).keys twiceTrace twiceEvent
          = some record ∧
        (∀ pre post k v, twiceEvent.attrs = pre ++ (k, v) :: post → (∀ a ∈ post, a.1 ≠ k) →
          ∃ i : Nat, indexOf (GetXESColumn MapRange.stored (.ok twiceDoc)).keys k = (i : Int) ∧
            (GetXESColumn MapRange.stored (.ok twiceDoc)).keys[i]? = some k ∧
            record[i]? = some (TrimSpace v)) ∧
        (∀ (i : Nat) (k : String), (GetXESColumn MapRange.stored (.ok twiceDoc)).keys[i]? = some k →
          (∀ a ∈ twiceEvent.attrs, a.1 ≠ k) → record[i]? = some "") :=
  ⟨by decide, by decide, by decide,
    record_cell_holds_last_value MapRange.stored twiceDoc (by decide) twiceTrace (by decide)
      twiceEvent (by decide)⟩

/-- C1, counterexample: the only event of `twiceDoc` carries the string attributes
`a` = `1` and `a` = `2`; its record is `["2", "c1"]`, so it is not the case that for
every attribute the event carries the cell at the position of its key holds its
trimmed value: the cell of `a` does not hold `1`. -/
theorem record_cell_counterexample :
    ¬ ∀ k v, (k, v) ∈ twiceEvent.attrs →
      ∃ record,
        buildRecord (GetXESColumn MapRange.stored (.ok twiceDoc)).keys twiceTrace twiceEvent
          = some record ∧
        ∃ i : Nat, indexOf (GetXESColumn MapRange.stored (.ok twiceDoc)).keys k = (i : Int) ∧
          record[i]? = some (TrimSpace v) := by
  intro h
  obtain ⟨record, hrec, i, hi, hcell⟩ := h "a" "1" (by decide)
  have hbuilt :
      buildRecord (GetXESColumn MapRange.stored (.ok twiceDoc)).keys twiceTrace twiceEvent
        = some ["2", "c1"] := by decide
  have hidx : indexOf (GetXESColumn MapRange.stored (.ok twiceDoc)).keys "a" = 0 := by decide
  rw [hbuilt] at hrec
  rw [hidx] at hi
  have hi0 : i = 0 := by omega
  subst hi0
  rw [← Option.some.inj hrec] at hcell
  revert hcell
  decide

/-- C2. For a document in which every trace has a string attribute, and every header
and keys, a call of `ConvertXESToCSV` in which every output step succeeds returns `nil`
after writing the header row followed by as many data rows as the document has events
in all its traces. -/
theorem row_count_eq_total_events (env : Env) (header keys : List String) (xes : XES)
    (hvalid : ∀ t ∈ xes.Trace, t.StringAttributes ≠ [])
    (hcreate : env.create = none) (hbom : env.writeString = none)
    (hwrite : ∀ n, env.write n = none) (hflush : env.flush = none) :
    ∃ rows, ConvertXESToCSV env header keys xes = ⟨.returned none, header :: rows, none⟩ ∧
      rows.length = totalEvents xes :=
  ⟨dataRows keys xes, by rw [convert_ok env header keys xes hvalid hcreate hbom hwrite, hflush],
    length_dataRows keys xes hvalid⟩

/-- C2, witness: the scenario document, which has two events, written in the
environment where nothing fails. -/
theorem row_count_witness :
    (∀ t ∈ scenarioDoc.Trace, t.StringAttributes ≠ []) ∧
      ∃ rows, ConvertXESToCSV Env.healthy ["h"] ["activity"] scenarioDoc
          = ⟨.returned none, ["h"] :: rows, none⟩ ∧
        rows.length = totalEvents scenarioDoc :=
  ⟨by decide,
    row_count_eq_total_events Env.healthy ["h"] ["activity"] scenarioDoc (by decide) rfl rfl
      (fun _ => rfl) rfl⟩

/-- C3. For every keys list, every trace whose first string attribute is `first` and
every event, the record built for the event has its last cell, at index `len(keys)`,
equal to the trimmed value of `first`; so the records of any two events of the trace
carry the same case identifier. -/
theorem case_identifier_cell (keys : List String) (t : Trace) (first : StringAttribute)
    (others : List StringAttribute) (ht : t.StringAttributes = first :: others) :
    (∀ e : Event, ∃ record, buildRecord keys t e = some record ∧
      record.length = keys.length + 1 ∧
      record[keys.length]? = some (TrimSpace first.Value)) ∧
    (∀ e₁ e₂ : Event, ∃ r₁ r₂, buildRecord keys t e₁ = some r₁ ∧
      buildRecord keys t e₂ = some r₂ ∧ r₁[keys.length]? = r₂[keys.length]?) := by
  have key : ∀ e : Event, ∃ record, buildRecord keys t e = some record ∧
      record.length = keys.length + 1 ∧
      record[keys.length]? = some (TrimSpace first.Value) := by
    intro e
    refine ⟨_, buildRecord_eq keys t e first others ht, ?_, ?_⟩
    · simp [foldl_putCell_length]
    · rw [List.getElem?_set_self]
      simp [foldl_putCell_length]
  refine ⟨key, fun e₁ e₂ => ?_⟩
  obtain ⟨r₁, h₁, _, c₁⟩ := key e₁
  obtain ⟨r₂, h₂, _, c₂⟩ := key e₂
  exact ⟨r₁, r₂, h₁, h₂, by rw [c₁, c₂]⟩

/-- C3, witness: the trace of the scenario, whose first string attribute has the
value `Case1`. -/
theorem case_identifier_witness :
    (∀ e : Event, ∃ record,
      buildRecord ["activity", "timestamp"]
        ⟨[], [⟨"concept:name", " Case1 "⟩, ⟨"x", "y"⟩]⟩ e = some record ∧
      record.length = ["activity", "timestamp"].length + 1 ∧
      record[["activity", "timestamp"].length]? = some (TrimSpace " Case1 ")) ∧
    (∀ e₁ e₂ : Event, ∃ r₁ r₂,
      buildRecord ["activity", "timestamp"]
        ⟨[], [⟨"concept:name", " Case1 "⟩, ⟨"x", "y"⟩]⟩ e₁ = some r₁ ∧
      buildRecord ["activity", "timestamp"]
        ⟨[], [⟨"concept:name", " Case1 "⟩, ⟨"x", "y"⟩]⟩ e₂ = some r₂ ∧
      r₁[["activity", "timestamp"].length]? = r₂[["activity", "timestamp"].length]?) :=
  case_identifier_cell ["activity", "timestamp"]
    ⟨[], [⟨"concept:name", " Case1 "⟩, ⟨"x", "y"⟩]⟩ ⟨"concept:name", " Case1 "⟩ [⟨"x", "y"⟩] rfl

/-! ## Properties of the discovered columns -/

/-- C4, as amended. The keys list returned by `GetXESColumn` for a decoded document
is a rearrangement of the first-seen discovery sequence (traces in order, events in
order, string attributes before date attributes, first occurrences only): the same
keys, each once, in the order in which the map of keys happens to be ranged over; it
is that sequence itself when the map is ranged over in the order the keys were
stored. -/
theorem keys_perm_discovery_order (range : MapRange) (xes : XES) :
    ((GetXESColumn range (.ok xes)).keys).Perm (discoveryOrder xes) ∧
      (GetXESColumn MapRange.stored (.ok xes)).keys = discoveryOrder xes := by
  constructor
  · simp only [GetXESColumn]
    rw [← scanKeys_eq]
    exact range.perm _
  · simp only [GetXESColumn, MapRange.stored]
    exact scanKeys_eq xes

/-- C4, counterexample: the keys of `twoKeyDoc` are discovered in the order `a`, `b`,
and a map order that visits them backwards makes `GetXESColumn` return `b`, `a`. -/
theorem keys_order_counterexample :
    discoveryOrder twoKeyDoc = ["a", "b"] ∧
      (GetXESColumn MapRange.backwards (.ok twoKeyDoc)).keys = ["b", "a"] ∧
      (GetXESColumn MapRange.backwards (.ok twoKeyDoc)).keys ≠ discoveryOrder twoKeyDoc := by
  decide

/-- C5. The keys list returned by `GetXESColumn` for a decoded document has no
duplicate; a string is in it exactly when it is the key of a string or date attribute
of some event of some trace; and its length is the number of distinct keys among the
attributes of all events. -/
theorem keys_nodup_and_complete (range : MapRange) (xes : XES) :
    ((GetXESColumn range (.ok xes)).keys).Nodup ∧
      (∀ k, k ∈ (GetXESColumn range (.ok xes)).keys ↔
        ∃ t ∈ xes.Trace, ∃ e ∈ t.Event,
          (∃ a ∈ e.StringAttributes, a.Key = k) ∨ (∃ a ∈ e.DateAttributes, a.Key = k)) ∧
      ((GetXESColumn range (.ok xes)).keys).length = xes.eventKeys.toFinset.card := by
  have hnodup : ((GetXESColumn range (.ok xes)).keys).Nodup := by
    simp only [GetXESColumn]
    rw [(range.perm _).nodup_iff, scanKeys_eq]
    exact nodup_keepFirst _
  refine ⟨hnodup, fun k => ?_, ?_⟩
  · rw [mem_keys_iff, mem_eventKeys]
  · rw [← List.toFinset_card_of_nodup hnodup]
    congr 1
    ext k
    simp only [List.mem_toFinset, mem_keys_iff]

/-- C6. The header returned by `GetXESColumn` for a decoded document has length
`len(keys)+1`; its `i`-th element is the trimmed `keys[i]`; its last element is the
literal `case:concept:name`; and the only attributes that fill data column `i` are
those whose key is `keys[i]`, the key that header column `i` names. -/
theorem header_matches_keys (range : MapRange) (xes : XES) :
    ((GetXESColumn range (.ok xes)).header).length
        = ((GetXESColumn range (.ok xes)).keys).length + 1 ∧
      (∀ (i : Nat) (k : String), (GetXESColumn range (.ok xes)).keys[i]? = some k →
        (GetXESColumn range (.ok xes)).header[i]? = some (TrimSpace k)) ∧
      (GetXESColumn range (.ok xes)).header[((GetXESColumn range (.ok xes)).keys).length]?
        = some "case:concept:name" ∧
      (∀ (i : Nat) (k : String), indexOf (GetXESColumn range (.ok xes)).keys k = (i : Int) →
        (GetXESColumn range (.ok xes)).keys[i]? = some k ∧
        (GetXESColumn range (.ok xes)).header[i]? = some (TrimSpace k)) := by
  simp only [GetXESColumn, buildHeader_eq]
  generalize range.visit (scanKeys xes) = keys
  have hcol : ∀ (i : Nat) (k : String), keys[i]? = some k →
      (keys.map TrimSpace ++ ["case:concept:name"])[i]? = some (TrimSpace k) := by
    intro i k hik
    obtain ⟨hlt, _⟩ := List.getElem?_eq_some.1 hik
    rw [List.getElem?_append_left (by simpa using hlt), List.getElem?_map, hik]
    rfl
  refine ⟨by simp, hcol, ?_, ?_⟩
  · rw [List.getElem?_append_right (by simp)]
    simp
  · intro i k hik
    obtain ⟨hm, hidx⟩ := indexOf_eq_nat hik
    have hlt : keys.indexOf k < keys.length := List.indexOf_lt_length.2 hm
    have hget : keys[i]? = some k := by
      rw [← hidx, List.getElem?_eq_getElem hlt, List.getElem_indexOf]
    exact ⟨hget, hcol i k hget⟩

theorem perm_pair {l : List String} {x y : String} (hxy : x ≠ y) (h : l.Perm [x, y]) :
    l = [x, y] ∨ l = [y, x] := by
  have hlen := h.length_eq
  match l, hlen with
  | [p, q], _ =>
    have hp : p ∈ [x, y] := h.mem_iff.1 (by simp)
    have hq : q ∈ [x, y] := h.mem_iff.1 (by simp)
    have hx : x ∈ [p, q] := h.mem_iff.2 (by simp)
    have hy : y ∈ [p, q] := h.mem_iff.2 (by simp)
    simp only [List.mem_cons, List.mem_singleton, List.not_mem_nil, or_false] at hp hq hx hy
    rcases hp with rfl | rfl <;> rcases hq with rfl | rfl
    · rcases hy with h1 | h1 <;> exact absurd h1.symm hxy
    · exact Or.inl rfl
    · exact Or.inr rfl
    · rcases hx with h1 | h1 <;> exact absurd h1 hxy

/-- C7, as amended. On the scenario document, `GetXESColumn` followed by
`ConvertXESToCSV` (no output step failing) yields either the header
`activity, timestamp, case:concept:name` with the data rows `submit, "", Case1` and
`"", 2024-01-01, Case1`, or the same table with its first two columns exchanged; which
of the two depends on the order in which the map of keys is ranged over. In both the
two data rows come in the order of the events. -/
theorem scenario_table (range : MapRange) :
    ((GetXESColumn range (.ok scenarioDoc)).header = ["activity", "timestamp", "case:concept:name"] ∧
      convertDocument range Env.healthy scenarioDoc
        = ⟨.returned none,
            [["activity", "timestamp", "case:concept:name"],
             ["submit", "", "Case1"], ["", "2024-01-01", "Case1"]], none⟩) ∨
    ((GetXESColumn range (.ok scenarioDoc)).header = ["timestamp", "activity", "case:concept:name"] ∧
      convertDocument range Env.healthy scenarioDoc
        = ⟨.returned none,
            [["timestamp", "activity", "case:concept:name"],
             ["", "submit", "Case1"], ["2024-01-01", "", "Case1"]], none⟩) := by
  have hscan : scanKeys scenarioDoc = ["activity", "timestamp"] := by decide
  have hperm := range.perm (scanKeys scenarioDoc)
  rw [hscan] at hperm
  simp only [convertDocument, GetXESColumn, hscan]
  rcases perm_pair (by decide) hperm with h | h
  · left
    rw [h]
    decide
  · right
    rw [h]
    decide

/-- C7, counterexample: when the map of keys is ranged over backwards, the scenario
document gets the header `timestamp, activity, case:concept:name` and the rows
`"", submit, Case1` and `2024-01-01, "", Case1`, not the table of the claim. -/
theorem scenario_counterexample :
    (GetXESColumn MapRange.backwards (.ok scenarioDoc)).header
        = ["timestamp", "activity", "case:concept:name"] ∧
      (convertDocument MapRange.backwards Env.healthy scenarioDoc).records
        = [["timestamp", "activity", "case:concept:name"],
           ["", "submit", "Case1"], ["2024-01-01", "", "Case1"]] ∧
      (GetXESColumn MapRange.backwards (.ok scenarioDoc)).header
        ≠ ["activity", "timestamp", "case:concept:name"] := by
  decide

/-! ## Errors -/

/-- C9, the code at the failing inputs. When writing the header row fails, when
writing a data row fails, and when the deferred flush fails, `ConvertXESToCSV` returns
`nil`: lines 118 and 140 return `errs`, which is `nil` there, and the error of `Flush`
is never consulted. Only a failure to create the file or to write the byte-order mark
is returned as an error. -/
theorem write_failures_return_nil :
    (ConvertXESToCSV Env.headerWriteFails ["activity", "case:concept:name"] ["activity"]
        scenarioDoc).outcome = .returned none ∧
      (ConvertXESToCSV Env.rowWriteFails ["activity", "case:concept:name"] ["activity"]
        scenarioDoc).outcome = .returned none ∧
      ConvertXESToCSV Env.flushFails ["activity", "case:concept:name"] ["activity"]
        ⟨[]⟩ = ⟨.returned none, [["activity", "case:concept:name"]],
          some "write: no space left on device"⟩ ∧
      (ConvertXESToCSV Env.createFails ["activity", "case:concept:name"] ["activity"]
        scenarioDoc).outcome = .returned (some "open: permission denied") ∧
      (ConvertXESToCSV Env.bomWriteFails ["activity", "case:concept:name"] ["activity"]
        scenarioDoc).outcome = .returned (some "write: no space left on device") := by
  decide

/-- C10, the code at the failing inputs. A trace without string attribute that has
an event makes `ConvertXESToCSV` panic at line 137 (index out of range) after the
header row is written; a trace without string attribute and without event is accepted,
the call returning `nil`. In neither case is an error returned. -/
theorem missing_case_identifier_panics :
    ConvertXESToCSV Env.healthy ["activity", "case:concept:name"] ["activity"] noCaseDoc
        = ⟨.panicked, [["activity", "case:concept:name"]], none⟩ ∧
      ConvertXESToCSV Env.healthy ["case:concept:name"] [] emptyTraceDoc
        = ⟨.returned none, [["case:concept:name"]], none⟩ := by
  decide

/-! ## The reader: termination -/

theorem parseLoop_mono {n : Nat} {s : ParseState} {p : Parsed} (h : parseLoop n s = some p)
    (m : Nat) (hm : n ≤ m) : parseLoop m s = some p := by
  induction n generalizing s m with
  | zero => simp [parseLoop] at h
  | succ n ih =>
    obtain ⟨m, rfl⟩ : ∃ k, m = k + 1 := ⟨m - 1, by omega⟩
    simp only [parseLoop] at h ⊢
    cases hstep : parseStep s with
    | inl s1 =>
      rw [hstep] at h
      exact ih h m (by omega)
    | inr q =>
      rw [hstep] at h
      exact h

theorem Reaches.step {s s1 : ParseState} {p : Parsed} (hstep : parseStep s = .inl s1)
    (h : Reaches s1 p) : Reaches s p := by
  obtain ⟨n, hn⟩ := h
  exact ⟨n + 1, by simp only [parseLoop, hstep, hn]⟩

theorem Reaches.done {s : ParseState} {p : Parsed} (hstep : parseStep s = .inr p) :
    Reaches s p :=
  ⟨1, by simp only [parseLoop, hstep]⟩

theorem Reaches.congr {s s1 : ParseState} {p : Parsed} (hstep : parseStep s = parseStep s1)
    (h : Reaches s1 p) : Reaches s p := by
  obtain ⟨n, hn⟩ := h
  cases n with
  | zero => simp [parseLoop] at hn
  | succ n => exact ⟨n + 1, by simp only [parseLoop, hstep] at hn ⊢; exact hn⟩

theorem Reaches.eq {s : ParseState} {p q : Parsed} (h : Reaches s p) {m : Nat}
    (hm : parseLoop m s = some q) : parseLoop m s = some p := by
  obtain ⟨n, hn⟩ := h
  have h1 := parseLoop_mono hn (max n m) (le_max_left _ _)
  have h2 := parseLoop_mono hm (max n m) (le_max_right _ _)
  rw [h1] at h2
  rw [hm, ← Option.some.inj h2]

theorem splitLine_eq {text line rest : List Char} (h : splitLine text = some (line, rest)) :
    text = line ++ rest ∧ line ≠ [] := by
  induction text generalizing line with
  | nil => simp [splitLine] at h
  | cons c cs ih =>
    simp only [splitLine] at h
    split at h
    · simp only [Option.some.injEq, Prod.mk.injEq] at h
      obtain ⟨rfl, rfl⟩ := h
      subst_vars
      simp
    · split at h
      · simp at h
      · rename_i l r hsplit
        simp only [Option.some.injEq, Prod.mk.injEq] at h
        obtain ⟨rfl, rfl⟩ := h
        simp [(ih hsplit).1]

theorem splitLine_none {text : List Char} (h : splitLine text = none) : '\n' ∉ text := by
  induction text with
  | nil => simp
  | cons c cs ih =>
    simp only [splitLine] at h
    split at h
    · simp at h
    · rename_i hc
      split at h
      · rename_i hsplit
        simp only [List.mem_cons, not_or]
        exact ⟨fun e => hc e.symm, ih hsplit⟩
      · simp at h

theorem normalizeNL_length (line : List Char) : (normalizeNL line).length ≤ line.length := by
  unfold normalizeNL
  split
  · rename_i h
    simp only [List.length_append, List.length_take, List.length_singleton]
    omega
  · exact le_refl _

theorem readLine_size (r : Stream) :
    (readLine r).1.length + (readLine r).2.2.data.length ≤ r.data.length := by
  unfold readLine
  split
  · rename_i line rest hsplit
    have h1 := (splitLine_eq hsplit).1
    have h2 := normalizeNL_length line
    simp only [h1, List.length_append]
    omega
  · split
    · simpa using normalizeNL_length r.data
    · split
      · split
        · refine le_trans (Nat.add_le_add_right (normalizeNL_length _) _) ?_
          simp
        · simpa using normalizeNL_length r.data
      · simp

theorem readLine_consumes (r : Stream) (h : (readLine r).2.1 = none) :
    (readLine r).2.2.data.length < r.data.length := by
  unfold readLine at h ⊢
  split
  · rename_i line rest hsplit
    obtain ⟨h1, h2⟩ := splitLine_eq hsplit
    have : 0 < line.length := List.length_pos.2 h2
    simp only [h1, List.length_append]
    omega
  · rename_i hsplit
    rw [hsplit] at h
    split
    · rename_i e he
      simp [he] at h
    · rename_i he
      split
      · rename_i hne
        simpa using List.length_pos.2 hne
      · rename_i hne
        simp [he, hne] at h

theorem parseStep_size {s s1 : ParseState} (h : parseStep s = .inl s1) : s1.size < s.size := by
  obtain ⟨line, r, errRead, fields, quoted⟩ := s
  unfold parseStep at h
  simp only [ParseState.size]
  cases quoted with
  | none =>
    simp only at h
    split at h
    · split at h
      · rename_i hlt
        simp only [Sum.inl.injEq] at h
        subst h
        simp only [List.length_drop]
        omega
      · simp at h
    · rename_i hq
      simp only [Sum.inl.injEq] at h
      subst h
      have : line ≠ [] := by
        intro e
        simp [e] at hq
      have := List.length_pos.2 this
      simp only [List.length_drop]
      omega
  | some buf =>
    simp only at h
    split at h
    · rename_i hlt
      split at h
      · simp only [Sum.inl.injEq] at h
        subst h
        simp only [List.length_drop]
        omega
      · split at h
        · simp only [Sum.inl.injEq] at h
          subst h
          simp only [List.length_drop]
          omega
        · split at h
          · simp at h
          · simp only [Sum.inl.injEq] at h
            subst h
            simp only [List.length_drop]
            omega
    · split at h
      · rename_i hpos
        split at h
        · simp at h
        · have hsize := readLine_size r
          rcases hrl : readLine r with ⟨l1, e1, r1⟩
          rw [hrl] at h hsize
          simp only [Sum.inl.injEq] at h hsize
          subst h
          simp only
          omega
      · simp at h

theorem parseLoop_isSome (n : Nat) (s : ParseState) (h : s.size < n) :
    (parseLoop n s).isSome := by
  induction n generalizing s with
  | zero => omega
  | succ n ih =>
    simp only [parseLoop]
    cases hstep : parseStep s with
    | inl s1 =>
      have := parseStep_size hstep
      exact ih s1 (by omega)
    | inr p => rfl

theorem skipEmptyLines_isSome (n : Nat) (r : Stream) (h : r.data.length < n) :
    ∃ line errRead r1, skipEmptyLines n r = some (line, errRead, r1) ∧
      line.length + r1.data.length ≤ r.data.length := by
  induction n generalizing r with
  | zero => omega
  | succ n ih =>
    simp only [skipEmptyLines]
    have hsize := readLine_size r
    have hcons := readLine_consumes r
    split
    · rename_i hskip
      have hlt := hcons hskip.1
      obtain ⟨l2, e2, r2, h2, hle⟩ := ih (readLine r).2.2 (by omega)
      exact ⟨l2, e2, r2, h2, by omega⟩
    · exact ⟨_, _, _, rfl, hsize⟩

/-- The bound given to the loops of `Read` is never reached: `Read` always returns. -/
theorem Read_isSome (r : Stream) : (Reader.Read r).isSome := by
  unfold Reader.Read readRecord
  obtain ⟨line, errRead, r1, h, hle⟩ := skipEmptyLines_isSome (r.data.length + 2) r (by omega)
  rw [h]
  simp only
  split
  · rfl
  · exact parseLoop_isSome _ _ (by simp only [ParseState.size]; omega)

/-- The function `GetFileColumns` always returns. -/
theorem GetFileColumns_isSome (file : Stream) : (GetFileColumns file).isSome := by
  unfold GetFileColumns
  have h := Read_isSome file
  cases hr : Reader.Read file with
  | none => rw [hr] at h; cases h
  | some parsed =>
    simp only
    split <;> rfl

/-! ## The reader on the text of a record -/

theorem lineOf_cons_ne {c : Char} (h : c ≠ '\n') (text : List Char) :
    lineOf (c :: text) = c :: lineOf text := by
  simp [lineOf, List.takeWhile_cons, h]

theorem restOf_cons_ne {c : Char} (h : c ≠ '\n') (text : List Char) :
    restOf (c :: text) = restOf text := by
  simp [restOf, List.dropWhile_cons, h]

theorem lineOf_cons_nl (text : List Char) : lineOf ('\n' :: text) = ['\n'] := by
  simp [lineOf, List.takeWhile_cons]

theorem restOf_cons_nl (text : List Char) : restOf ('\n' :: text) = text := by
  simp [restOf, List.dropWhile_cons]

theorem lineOf_ne_nil (text : List Char) : lineOf text ≠ [] := by
  simp [lineOf]

theorem lineOf_append_ne (u text : List Char) (h : ∀ c ∈ u, c ≠ '\n') :
    lineOf (u ++ text) = u ++ lineOf text := by
  induction u with
  | nil => rfl
  | cons c u ih =>
    have hc := h c (List.mem_cons_self _ _)
    rw [List.cons_append, lineOf_cons_ne hc, ih (fun d hd => h d (List.mem_cons_of_mem _ hd)),
      List.cons_append]

theorem restOf_append_ne (u text : List Char) (h : ∀ c ∈ u, c ≠ '\n') :
    restOf (u ++ text) = restOf text := by
  induction u with
  | nil => rfl
  | cons c u ih =>
    have hc := h c (List.mem_cons_self _ _)
    rw [List.cons_append, restOf_cons_ne hc, ih (fun d hd => h d (List.mem_cons_of_mem _ hd))]

theorem splitLine_append (text rest : List Char) (h : '\n' ∈ text) :
    splitLine (text ++ rest) = some (lineOf text, restOf text ++ rest) := by
  induction text with
  | nil => simp at h
  | cons c cs ih =>
    by_cases hc : c = '\n'
    · subst hc
      simp [splitLine, lineOf_cons_nl, restOf_cons_nl]
    · have hmem : '\n' ∈ cs := by
        rcases List.mem_cons.1 h with e | e
        · exact absurd e.symm hc
        · exact e
      simp only [List.cons_append, splitLine, if_neg hc, List.append_eq, ih hmem,
        lineOf_cons_ne hc, restOf_cons_ne hc]

theorem hasCRLF_cons {c : Char} {cs : List Char} (h : hasCRLF (c :: cs) = false) :
    hasCRLF cs = false := by
  simp only [hasCRLF, Bool.or_eq_false_iff] at h
  exact h.2

theorem hasCRLF_of_lineOf (text p : List Char) (hnl : '\n' ∈ text)
    (h : lineOf text = p ++ ['\r', '\n']) : hasCRLF text = true := by
  induction text generalizing p with
  | nil => simp at hnl
  | cons c cs ih =>
    by_cases hc : c = '\n'
    · subst hc
      rw [lineOf_cons_nl] at h
      have := congrArg List.length h
      simp at this
    · have hmem : '\n' ∈ cs := by
        rcases List.mem_cons.1 hnl with e | e
        · exact absurd e.symm hc
        · exact e
      rw [lineOf_cons_ne hc] at h
      cases p with
      | nil =>
        simp only [List.nil_append, List.cons.injEq] at h
        obtain ⟨rfl, h2⟩ := h
        cases cs with
        | nil => simp at hmem
        | cons d ds =>
          by_cases hd : d = '\n'
          · subst hd
            simp [hasCRLF]
          · rw [lineOf_cons_ne hd] at h2
            simp only [List.cons.injEq] at h2
            exact absurd h2.1 hd
      | cons a p =>
        simp only [List.cons_append, List.cons.injEq] at h
        have := ih p hmem h.2
        simp [hasCRLF, this]

theorem normalizeNL_eq_self (line : List Char) (h : ∀ p, line ≠ p ++ ['\r', '\n']) :
    normalizeNL line = line := by
  unfold normalizeNL
  split
  · rename_i hc
    exfalso
    apply h (line.take (line.length - 2))
    conv_lhs => rw [← List.take_append_drop (line.length - 2) line]
    rw [hc.2]
  · rfl

theorem readLine_text (text rest : List Char) (fail : Option String) (hnl : '\n' ∈ text)
    (hcr : hasCRLF text = false) :
    readLine ⟨text ++ rest, fail⟩ = (lineOf text, none, ⟨restOf text ++ rest, fail⟩) := by
  unfold readLine
  simp only [splitLine_append text rest hnl]
  rw [normalizeNL_eq_self]
  intro p hp
  have := hasCRLF_of_lineOf text p hnl hp
  rw [hcr] at this
  cases this

theorem writeFieldsFrom_succ (n : Nat) (fs : List String) :
    writeFieldsFrom (n + 1) fs = writeFieldsFrom 1 fs := by
  induction fs generalizing n with
  | nil => rfl
  | cons f fs ih =>
    simp only [writeFieldsFrom, ih (n + 1), ih 1]
    simp

theorem writeFieldsFrom_one_cons (f : String) (fs : List String) :
    writeFieldsFrom 1 (f :: fs) = ',' :: (writeField f.data ++ writeFieldsFrom 1 fs) := by
  simp only [writeFieldsFrom, writeFieldsFrom_succ 1]
  simp

theorem Write_cons (f : String) (fs : List String) :
    Writer.Write (f :: fs) = writeField f.data ++ writeFieldsFrom 1 fs := by
  simp only [Writer.Write, writeFieldsFrom, writeFieldsFrom_succ 0]
  simp

theorem nl_mem_writeFieldsFrom (n : Nat) (fs : List String) :
    '\n' ∈ writeFieldsFrom n fs := by
  induction fs generalizing n with
  | nil => simp [writeFieldsFrom]
  | cons f fs ih =>
    simp only [writeFieldsFrom, List.mem_append]
    exact Or.inr (ih _)

theorem plain_of_not_needsQuotes (u : List Char) (h : fieldNeedsQuotes u = false) :
    Plain u ∧ '\r' ∉ u := by
  unfold fieldNeedsQuotes at h
  by_cases hnil : u = []
  · subst hnil
    simp [Plain]
  · rw [if_neg hnil] at h
    split at h
    · cases h
    · split at h
      · cases h
      · rename_i hany
        simp only [List.any_eq_true, Bool.or_eq_true, decide_eq_true_eq, not_exists, not_and,
          not_or] at hany
        refine ⟨⟨?_, fun c hc => ⟨(hany c hc).2, (hany c hc).1.1.1⟩⟩, fun hc => (hany _ hc).1.1.2 rfl⟩
        intro hq
        cases u with
        | nil => simp at hq
        | cons a u =>
          simp only [List.head?_cons, Option.some.injEq] at hq
          exact (hany a (List.mem_cons_self _ _)).1.2 hq

theorem head_append_plain {u t : List Char} (hu : Plain u) (ht : t.head? ≠ some '"') :
    (u ++ t).head? ≠ some '"' := by
  cases u with
  | nil => simpa using ht
  | cons a u => simpa using hu.1

theorem step_plain_last (u rest : List Char) (fail : Option String) (acc : List (List Char))
    (hu : Plain u) :
    parseStep (stateAt (u ++ ['\n']) rest fail acc none)
      = .inr ⟨acc ++ [u], none, ⟨rest, fail⟩⟩ := by
  have hline : lineOf (u ++ ['\n']) = u ++ ['\n'] := by
    rw [lineOf_append_ne _ _ (fun c hc => (hu.2 c hc).2), lineOf_cons_nl]
  have hrest : restOf (u ++ ['\n']) = [] := by
    rw [restOf_append_ne _ _ (fun c hc => (hu.2 c hc).2), restOf_cons_nl]
  have hhead : (u ++ ['\n']).head? ≠ some '"' := head_append_plain hu (by simp)
  have hidx : List.indexOf ',' (u ++ ['\n']) = u.length + 1 := by
    rw [List.indexOf_append_of_not_mem (fun hc => (hu.2 _ hc).1 rfl)]
    simp [List.indexOf_cons_ne]
  have hnl : lengthNL (u ++ ['\n']) = 1 := by simp [lengthNL]
  simp only [parseStep, stateAt, hline, hrest, Reader.Comma, hidx, hnl]
  rw [if_pos hhead, if_neg (by simp)]
  simp

theorem step_plain_next (u text rest : List Char) (fail : Option String)
    (acc : List (List Char)) (hu : Plain u) :
    parseStep (stateAt (u ++ ',' :: text) rest fail acc none)
      = .inl (stateAt text rest fail (acc ++ [u]) none) := by
  have hline : lineOf (u ++ ',' :: text) = u ++ ',' :: lineOf text := by
    rw [lineOf_append_ne _ _ (fun c hc => (hu.2 c hc).2), lineOf_cons_ne (by decide)]
  have hrest : restOf (u ++ ',' :: text) = restOf text := by
    rw [restOf_append_ne _ _ (fun c hc => (hu.2 c hc).2), restOf_cons_ne (by decide)]
  have hhead : (u ++ ',' :: lineOf text).head? ≠ some '"' := head_append_plain hu (by simp)
  have hidx : List.indexOf ',' (u ++ ',' :: lineOf text) = u.length := by
    rw [List.indexOf_append_of_not_mem (fun hc => (hu.2 _ hc).1 rfl)]
    simp
  simp only [parseStep, stateAt, hline, hrest, Reader.Comma, hidx]
  rw [if_pos hhead, if_pos (by simp)]
  simp

theorem step_open (text rest : List Char) (fail : Option String) (acc : List (List Char)) :
    parseStep (stateAt ('"' :: text) rest fail acc none)
      = .inl (stateAt text rest fail acc (some [])) := by
  simp [parseStep, stateAt, lineOf_cons_ne, restOf_cons_ne]

theorem step_close_last (rest : List Char) (fail : Option String) (acc : List (List Char))
    (buf : List Char) :
    parseStep (stateAt ['"', '\n'] rest fail acc (some buf))
      = .inr ⟨acc ++ [buf], none, ⟨rest, fail⟩⟩ := by
  simp [parseStep, stateAt, lineOf_cons_ne, restOf_cons_ne, lineOf_cons_nl, restOf_cons_nl,
    Reader.Comma, lengthNL]

theorem step_close_next (text rest : List Char) (fail : Option String)
    (acc : List (List Char)) (buf : List Char) :
    parseStep (stateAt ('"' :: ',' :: text) rest fail acc (some buf))
      = .inl (stateAt text rest fail (acc ++ [buf]) none) := by
  simp [parseStep, stateAt, lineOf_cons_ne, restOf_cons_ne, Reader.Comma]

theorem step_quote_quote (text rest : List Char) (fail : Option String)
    (acc : List (List Char)) (buf : List Char) :
    parseStep (stateAt ('"' :: '"' :: text) rest fail acc (some buf))
      = .inl (stateAt text rest fail acc (some (buf ++ ['"']))) := by
  simp [parseStep, stateAt, lineOf_cons_ne, restOf_cons_ne]

theorem step_newline (text rest : List Char) (fail : Option String) (acc : List (List Char))
    (buf : List Char) (hnl : '\n' ∈ text) (hcr : hasCRLF text = false) :
    parseStep (stateAt ('\n' :: text) rest fail acc (some buf))
      = .inl (stateAt text rest fail acc (some (buf ++ ['\n']))) := by
  simp [parseStep, stateAt, lineOf_cons_nl, restOf_cons_nl, List.indexOf_cons_ne,
    readLine_text text rest fail hnl hcr]

theorem step_shift (c : Char) (text rest : List Char) (fail : Option String)
    (acc : List (List Char)) (buf : List Char) (hq : c ≠ '"') (hn : c ≠ '\n') :
    parseStep (stateAt (c :: text) rest fail acc (some buf))
      = parseStep (stateAt text rest fail acc (some (buf ++ [c]))) := by
  have hpos : 0 < (lineOf text).length := List.length_pos.2 (lineOf_ne_nil text)
  simp only [parseStep, stateAt, lineOf_cons_ne hn, restOf_cons_ne hn,
    List.indexOf_cons_ne _ hq, List.length_cons, Nat.succ_eq_add_one, Nat.add_lt_add_iff_right,
    List.take_succ_cons, List.drop_succ_cons, List.append_assoc, List.singleton_append]
  split
  · rfl
  · rw [if_pos (by omega)]

theorem reaches_quoted (text rest : List Char) (fail : Option String)
    (acc : List (List Char)) (p : Parsed) (hnl : '\n' ∈ text) (q buf : List Char)
    (hcr : hasCRLF (q.flatMap quoteChar ++ '"' :: text) = false)
    (h : Reaches (stateAt ('"' :: text) rest fail acc (some (buf ++ q))) p) :
    Reaches (stateAt (q.flatMap quoteChar ++ '"' :: text) rest fail acc (some buf)) p := by
  induction q generalizing buf with
  | nil => simpa using h
  | cons c q ih =>
    have hbuf : buf ++ c :: q = (buf ++ [c]) ++ q := by simp
    rw [hbuf] at h
    by_cases hq : c = '"'
    · subst hq
      have htext : ('"' :: q).flatMap quoteChar ++ '"' :: text
          = '"' :: '"' :: (q.flatMap quoteChar ++ '"' :: text) := by
        simp [List.flatMap_cons, quoteChar]
      rw [htext] at hcr ⊢
      exact Reaches.step (step_quote_quote _ rest fail acc buf)
        (ih _ (hasCRLF_cons (hasCRLF_cons hcr)) h)
    · have htext : (c :: q).flatMap quoteChar ++ '"' :: text
          = c :: (q.flatMap quoteChar ++ '"' :: text) := by
        simp [List.flatMap_cons, quoteChar, hq]
      rw [htext] at hcr ⊢
      have hcr2 := hasCRLF_cons hcr
      by_cases hn : c = '\n'
      · subst hn
        refine Reaches.step (step_newline _ rest fail acc buf ?_ hcr2) (ih _ hcr2 h)
        simp [hnl]
      · exact Reaches.congr (step_shift c _ rest fail acc buf hq hn) (ih _ hcr2 h)

theorem hasCRLF_cons_ne {c : Char} (hc : c ≠ '\r') (cs : List Char) :
    hasCRLF (c :: cs) = hasCRLF cs := by
  simp [hasCRLF, hc]

theorem hasCRLF_append_of_not_mem (u text : List Char) (hu : '\r' ∉ u) :
    hasCRLF (u ++ text) = hasCRLF text := by
  induction u with
  | nil => rfl
  | cons c u ih =>
    simp only [List.mem_cons, not_or] at hu
    have hc : c ≠ '\r' := fun e => hu.1 e.symm
    simp [hasCRLF, hc, ih hu.2]

theorem head_quoted (q text : List Char) :
    (q.flatMap quoteChar ++ '"' :: text).head? = some '\n' ↔ q.head? = some '\n' := by
  cases q with
  | nil => simp
  | cons c q =>
    by_cases hq : c = '"'
    · subst hq
      simp [List.flatMap_cons, quoteChar]
    · simp [List.flatMap_cons, quoteChar, hq]

theorem hasCRLF_quoted (q text : List Char) (hq : hasCRLF q = false)
    (ht : hasCRLF text = false) :
    hasCRLF (q.flatMap quoteChar ++ '"' :: text) = false := by
  induction q with
  | nil => simpa [hasCRLF] using ht
  | cons c q ih =>
    have hq2 := hasCRLF_cons hq
    have ih2 := ih hq2
    by_cases hc : c = '"'
    · subst hc
      have htext : ('"' :: q).flatMap quoteChar ++ '"' :: text
          = '"' :: '"' :: (q.flatMap quoteChar ++ '"' :: text) := by
        simp [List.flatMap_cons, quoteChar]
      rw [htext, hasCRLF_cons_ne (by decide), hasCRLF_cons_ne (by decide)]
      exact ih2
    · have htext : (c :: q).flatMap quoteChar ++ '"' :: text
          = c :: (q.flatMap quoteChar ++ '"' :: text) := by
        simp [List.flatMap_cons, quoteChar, hc]
      rw [htext]
      simp only [hasCRLF, Bool.or_eq_false_iff, Bool.and_eq_false_iff] at hq ⊢
      refine ⟨?_, ih2⟩
      rcases hq.1 with h1 | h1
      · exact Or.inl h1
      · right
        have := head_quoted q text
        simp only [beq_eq_false_iff_ne, ne_eq] at h1 ⊢
        rw [this]
        exact h1

theorem hasCRLF_writeField (f text : List Char) (hf : hasCRLF f = false)
    (ht : hasCRLF text = false) : hasCRLF (writeField f ++ text) = false := by
  unfold writeField
  split
  · have := hasCRLF_quoted f text hf ht
    simpa [hasCRLF] using this
  · rename_i hnq
    rw [hasCRLF_append_of_not_mem _ _ (plain_of_not_needsQuotes f (by simpa using hnq)).2]
    exact ht

theorem hasCRLF_writeFieldsFrom (fs : List String) (hfs : ∀ f ∈ fs, hasCRLF f.data = false) :
    hasCRLF (writeFieldsFrom 1 fs) = false := by
  induction fs with
  | nil => simp [writeFieldsFrom, hasCRLF]
  | cons f fs ih =>
    rw [writeFieldsFrom_one_cons]
    have := hasCRLF_writeField f.data _ (hfs f (List.mem_cons_self _ _))
      (ih (fun g hg => hfs g (List.mem_cons_of_mem _ hg)))
    simpa [hasCRLF] using this

theorem reaches_fields (rest : List Char) (fail : Option String) (fs : List String)
    (hfs : ∀ f ∈ fs, hasCRLF f.data = false) (acc : List (List Char)) :
    (∀ u, Plain u →
      Reaches (stateAt (u ++ writeFieldsFrom 1 fs) rest fail acc none)
        ⟨acc ++ [u] ++ fs.map String.data, none, ⟨rest, fail⟩⟩) ∧
    (∀ buf,
      Reaches (stateAt ('"' :: writeFieldsFrom 1 fs) rest fail acc (some buf))
        ⟨acc ++ [buf] ++ fs.map String.data, none, ⟨rest, fail⟩⟩) := by
  induction fs generalizing acc with
  | nil =>
    constructor
    · intro u hu
      simpa [writeFieldsFrom] using Reaches.done (step_plain_last u rest fail acc hu)
    · intro buf
      simpa [writeFieldsFrom] using Reaches.done (step_close_last rest fail acc buf)
  | cons f fs ih =>
    have hfs2 : ∀ g ∈ fs, hasCRLF g.data = false := fun g hg => hfs g (List.mem_cons_of_mem _ hg)
    have hf := hfs f (List.mem_cons_self _ _)
    have hnext : ∀ acc1 : List (List Char),
        Reaches (stateAt (writeField f.data ++ writeFieldsFrom 1 fs) rest fail acc1 none)
          ⟨acc1 ++ [f.data] ++ fs.map String.data, none, ⟨rest, fail⟩⟩ := by
      intro acc1
      by_cases hq : fieldNeedsQuotes f.data = true
      · have htext : writeField f.data ++ writeFieldsFrom 1 fs
            = '"' :: (f.data.flatMap quoteChar ++ '"' :: writeFieldsFrom 1 fs) := by
          simp [writeField, hq]
        rw [htext]
        refine Reaches.step (step_open _ rest fail acc1) ?_
        refine reaches_quoted _ rest fail acc1 _ (nl_mem_writeFieldsFrom 1 fs) f.data []
          (hasCRLF_quoted _ _ hf (hasCRLF_writeFieldsFrom fs hfs2)) ?_
        simpa using (ih hfs2 acc1).2 f.data
      · have hq2 : fieldNeedsQuotes f.data = false := by simpa using hq
        have htext : writeField f.data = f.data := by simp [writeField, hq2]
        rw [htext]
        exact (ih hfs2 acc1).1 f.data (plain_of_not_needsQuotes _ hq2).1
    rw [writeFieldsFrom_one_cons]
    constructor
    · intro u hu
      have := Reaches.step (step_plain_next u _ rest fail acc hu) (hnext (acc ++ [u]))
      simpa using this
    · intro buf
      have := Reaches.step (step_close_next _ rest fail acc buf) (hnext (acc ++ [buf]))
      simpa using this

theorem head_trimSpaceChars (cs : List Char) (c : Char)
    (h : (trimSpaceChars cs).head? = some c) : isSpace c = false := by
  unfold trimSpaceChars at h
  have hpre : ((cs.dropWhile isSpace).reverse.dropWhile isSpace).reverse
      <+: cs.dropWhile isSpace := by
    have := List.reverse_prefix.2 (List.dropWhile_suffix (l := (cs.dropWhile isSpace).reverse) isSpace)
    simpa using this
  obtain ⟨t, ht⟩ := hpre
  have hhead : (cs.dropWhile isSpace).head? = some c := by
    rw [← ht]
    cases hb : ((cs.dropWhile isSpace).reverse.dropWhile isSpace).reverse with
    | nil => rw [hb] at h; simp at h
    | cons a b => rw [hb] at h; simpa using h
  have := List.head?_dropWhile_not isSpace cs
  rw [hhead] at this
  exact this

theorem trimLeft_self (f : List Char)
    (h : ∀ c, f.head? = some c → c ≠ '\uFEFF' ∧ c ≠ ' ') :
    TrimLeft ⟨f⟩ "\uFEFF " = ⟨f⟩ := by
  unfold TrimLeft
  congr 1
  cases f with
  | nil => rfl
  | cons a f =>
    have := h a rfl
    apply List.dropWhile_cons_of_neg
    simp only [decide_eq_true_eq]
    intro hmem
    simp only [List.mem_cons, List.mem_singleton, List.not_mem_nil, or_false] at hmem
    rcases hmem with e | e
    · exact this.1 e
    · exact this.2 e

theorem trimLeft_bom (f : List Char)
    (h : ∀ c, f.head? = some c → c ≠ '\uFEFF' ∧ c ≠ ' ') :
    TrimLeft ⟨'\uFEFF' :: f⟩ "\uFEFF " = ⟨f⟩ := by
  have h1 := trimLeft_self f h
  unfold TrimLeft at h1 ⊢
  have hcut : ("\uFEFF ").data = ['\uFEFF', ' '] := by decide
  rw [hcut] at h1 ⊢
  rw [List.dropWhile_cons, if_pos (by simp)]
  exact h1

theorem getFileColumns_written (f0 : String) (fs : List String) (rest : List Char)
    (fail : Option String) (h0 : fieldNeedsQuotes f0.data = false)
    (hcr : ∀ f ∈ fs, hasCRLF f.data = false)
    (hlead : ∀ f ∈ f0 :: fs, ∀ c, f.data.head? = some c → c ≠ '\uFEFF' ∧ c ≠ ' ') :
    GetFileColumns ⟨'\uFEFF' :: (Writer.Write (f0 :: fs) ++ rest), fail⟩
      = some ⟨f0 :: fs, ",", none⟩ := by
  obtain ⟨hplain0, hnocr0⟩ := plain_of_not_needsQuotes f0.data h0
  have hwf : writeField f0.data = f0.data := by simp [writeField, h0]
  have htext : '\uFEFF' :: (Writer.Write (f0 :: fs) ++ rest)
      = ('\uFEFF' :: f0.data ++ writeFieldsFrom 1 fs) ++ rest := by
    rw [Write_cons, hwf]
    simp
  have hplain : Plain ('\uFEFF' :: f0.data) := by
    refine ⟨by simp, fun c hc => ?_⟩
    rcases List.mem_cons.1 hc with e | e
    · subst e
      exact ⟨by decide, by decide⟩
    · exact hplain0.2 c e
  have hnl : '\n' ∈ '\uFEFF' :: f0.data ++ writeFieldsFrom 1 fs := by
    simp only [List.cons_append, List.mem_cons, List.mem_append]
    exact Or.inr (Or.inr (nl_mem_writeFieldsFrom 1 fs))
  have hnocr : hasCRLF ('\uFEFF' :: f0.data ++ writeFieldsFrom 1 fs) = false := by
    rw [List.cons_append, hasCRLF_cons_ne (by decide), hasCRLF_append_of_not_mem _ _ hnocr0]
    exact hasCRLF_writeFieldsFrom fs hcr
  have hread := readLine_text _ rest fail hnl hnocr
  have hsize := readLine_size ⟨('\uFEFF' :: f0.data ++ writeFieldsFrom 1 fs) ++ rest, fail⟩
  rw [hread] at hsize
  simp only at hsize
  have hline : lineOf ('\uFEFF' :: f0.data ++ writeFieldsFrom 1 fs)
      = '\uFEFF' :: lineOf (f0.data ++ writeFieldsFrom 1 fs) := by
    rw [List.cons_append, lineOf_cons_ne (by decide)]
  have hlen2 : 2 ≤ (lineOf ('\uFEFF' :: f0.data ++ writeFieldsFrom 1 fs)).length := by
    rw [hline]
    have := List.length_pos.2 (lineOf_ne_nil (f0.data ++ writeFieldsFrom 1 fs))
    simp only [List.length_cons]
    omega
  have hNL : lengthNL (lineOf ('\uFEFF' :: f0.data ++ writeFieldsFrom 1 fs)) ≤ 1 := by
    unfold lengthNL
    split <;> omega
  have hreach := (reaches_fields rest fail fs hcr []).1 _ hplain
  have hsome := parseLoop_isSome
    ((('\uFEFF' :: f0.data ++ writeFieldsFrom 1 fs) ++ rest).length + 2)
    (stateAt ('\uFEFF' :: f0.data ++ writeFieldsFrom 1 fs) rest fail [] none)
    (by simp only [ParseState.size, stateAt]; omega)
  obtain ⟨q, hq⟩ := Option.isSome_iff_exists.1 hsome
  have hloop := hreach.eq hq
  rw [htext]
  unfold GetFileColumns Reader.Read readRecord
  simp only [skipEmptyLines, hread]
  rw [if_neg (by omega)]
  simp only [reduceCtorEq, if_false]
  have hstate : (⟨lineOf ('\uFEFF' :: f0.data ++ writeFieldsFrom 1 fs),
      ⟨restOf ('\uFEFF' :: f0.data ++ writeFieldsFrom 1 fs) ++ rest, fail⟩, none, [], none⟩ :
        ParseState) = stateAt ('\uFEFF' :: f0.data ++ writeFieldsFrom 1 fs) rest fail [] none := rfl
  rw [hstate, hloop]
  simp only [ne_eq, not_true_eq_false, if_false, List.nil_append, List.singleton_append,
    List.map_cons, List.map_map]
  have hfirst := trimLeft_bom f0.data (hlead f0 (List.mem_cons_self _ _))
  have hothers : List.map ((fun col => TrimLeft ⟨col⟩ "\uFEFF ") ∘ String.data) fs = fs := by
    conv_rhs => rw [← List.map_id fs]
    apply List.map_congr_left
    intro f hf
    exact trimLeft_self f.data (hlead f (List.mem_cons_of_mem _ hf))
  rw [hfirst, hothers]
  rfl

/-! ## Round trip between `ConvertXESToCSV` and `GetFileColumns` -/

/-- C8, as amended. For a header returned by `GetXESColumn` whose first column name
the CSV writer emits unquoted (no comma, quote, carriage return or line feed in it, and
it is not backslash-dot), none of whose names starts with U+FEFF and none of whose
names holds a carriage return immediately followed by a line feed, `GetFileColumns`
fed the file written by `ConvertXESToCSV` (the byte-order mark and the encoded header
row, alone when `rows` is empty or followed by data rows) succeeds and returns that
header and the delimiter `,`. -/
theorem header_round_trip (range : MapRange) (xes : XES) (rows : List (List String))
    (fail : Option String)
    (hfirst : ∀ h ∈ (GetXESColumn range (.ok xes)).header.head?,
      fieldNeedsQuotes h.data = false)
    (hbom : ∀ h ∈ (GetXESColumn range (.ok xes)).header, h.data.head? ≠ some '\uFEFF')
    (hcrlf : ∀ h ∈ (GetXESColumn range (.ok xes)).header, hasCRLF h.data = false) :
    GetFileColumns ⟨fileContents ((GetXESColumn range (.ok xes)).header :: rows), fail⟩
      = some ⟨(GetXESColumn range (.ok xes)).header, ",", none⟩ := by
  have hspace : ∀ h ∈ (GetXESColumn range (.ok xes)).header, ∀ c,
      h.data.head? = some c → c ≠ ' ' := by
    intro h hh c hc
    simp only [GetXESColumn, buildHeader_eq, List.mem_append, List.mem_map,
      List.mem_singleton] at hh
    rcases hh with ⟨k, _, rfl⟩ | rfl
    · have := head_trimSpaceChars k.data c hc
      intro e
      subst e
      revert this
      decide
    · have hc2 : c = 'c' := by
        have : ("case:concept:name" : String).data.head? = some 'c' := by decide
        rw [this] at hc
        exact (Option.some.inj hc).symm
      subst hc2
      decide
  generalize hhdr : (GetXESColumn range (.ok xes)).header = header at *
  cases header with
  | nil =>
    simp [GetXESColumn, buildHeader_eq] at hhdr
  | cons f0 fs =>
    have h := getFileColumns_written f0 fs (rows.flatMap Writer.Write) fail
      (hfirst f0 (by simp))
      (fun f hf => hcrlf f (List.mem_cons_of_mem _ hf))
      (fun f hf c hc => ⟨fun e => hbom f hf (by rw [hc, e]), hspace f hf c hc⟩)
    simpa [fileContents] using h

/-- C8, witness: the header of the scenario document (map order as stored), read back
from the file made of the header row and one data row. -/
theorem header_round_trip_witness :
    (∀ h ∈ (GetXESColumn MapRange.stored (.ok scenarioDoc)).header.head?,
      fieldNeedsQuotes h.data = false) ∧
    (∀ h ∈ (GetXESColumn MapRange.stored (.ok scenarioDoc)).header,
      h.data.head? ≠ some '\uFEFF') ∧
    (∀ h ∈ (GetXESColumn MapRange.stored (.ok scenarioDoc)).header,
      hasCRLF h.data = false) ∧
    GetFileColumns
        ⟨fileContents ((GetXESColumn MapRange.stored (.ok scenarioDoc)).header ::
          [["submit", "", "Case1"]]), none⟩
      = some ⟨(GetXESColumn MapRange.stored (.ok scenarioDoc)).header, ",", none⟩ :=
  ⟨by decide, by decide, by decide,
    header_round_trip MapRange.stored scenarioDoc [["submit", "", "Case1"]] none
      (by decide) (by decide) (by decide)⟩

/-- C8, counterexample: the only attribute key of `commaKeyDoc` is `a,b`, so the
header is `a,b`, `case:concept:name` and its first line in the file is the byte-order
mark followed by `"a,b",case:concept:name`. The reader does not see a quoted field
behind the byte-order mark and splits at the first comma: `GetFileColumns` returns the
three columns `"a`, `b"` and `case:concept:name`, not the header. A name that starts
with U+FEFF loses it, and a carriage return before a line feed inside a name is
dropped. -/
theorem header_round_trip_counterexample :
    (GetXESColumn MapRange.stored (.ok commaKeyDoc)).header = ["a,b", "case:concept:name"] ∧
    GetFileColumns ⟨fileContents [(GetXESColumn MapRange.stored (.ok commaKeyDoc)).header], none⟩
      = some ⟨["\"a", "b\"", "case:concept:name"], ",", none⟩ ∧
    GetFileColumns ⟨fileContents [(GetXESColumn MapRange.stored (.ok commaKeyDoc)).header], none⟩
      ≠ some ⟨(GetXESColumn MapRange.stored (.ok commaKeyDoc)).header, ",", none⟩ ∧
    GetFileColumns ⟨fileContents [(GetXESColumn MapRange.stored (.ok bomKeyDoc)).header], none⟩
      = some ⟨["x", "case:concept:name"], ",", none⟩ ∧
    (GetXESColumn MapRange.stored (.ok bomKeyDoc)).header = ["\uFEFFx", "case:concept:name"] ∧
    GetFileColumns ⟨fileContents [(GetXESColumn MapRange.stored (.ok crlfKeyDoc)).header], none⟩
      = some ⟨["a", "b\nc", "case:concept:name"], ",", none⟩ ∧
    (GetXESColumn MapRange.stored (.ok crlfKeyDoc)).header
      = ["a", "b\r\nc", "case:concept:name"] := by
  decide

/-! ## Row order -/

theorem map_some_filterMap_buildRecord (keys : List String) (t : Trace)
    (ht : t.StringAttributes ≠ []) (es : List Event) :
    (es.filterMap (buildRecord keys t)).map some = es.map (buildRecord keys t) := by
  obtain ⟨first, others, hfirst⟩ := List.exists_cons_of_ne_nil ht
  induction es with
  | nil => rfl
  | cons e es ih =>
    rw [List.filterMap_cons, buildRecord_eq keys t e first others hfirst]
    simp only [List.map_cons, ih, buildRecord_eq keys t e first others hfirst]

theorem map_some_rows (keys : List String) (ts : List Trace)
    (hts : ∀ t ∈ ts, t.StringAttributes ≠ []) :
    (ts.flatMap (fun t => t.Event.filterMap (buildRecord keys t))).map some
      = ts.flatMap (fun t => t.Event.map (buildRecord keys t)) := by
  induction ts with
  | nil => rfl
  | cons t ts ih =>
    rw [List.flatMap_cons, List.flatMap_cons, List.map_append,
      map_some_filterMap_buildRecord keys t (hts t (List.mem_cons_self _ _)),
      ih (fun u hu => hts u (List.mem_cons_of_mem _ hu))]

theorem map_allEvents (keys : List String) (ts : List Trace) :
    (ts.flatMap (fun t => t.Event.map (fun e => (t, e)))).map
        (fun te => buildRecord keys te.1 te.2)
      = ts.flatMap (fun t => t.Event.map (buildRecord keys t)) := by
  induction ts with
  | nil => rfl
  | cons t ts ih =>
    rw [List.flatMap_cons, List.flatMap_cons, List.map_append, ih, List.map_map]
    rfl

/-- C11. For a document in which every trace has a string attribute and fixed header
and keys, the data rows written by a call of `ConvertXESToCSV` in which no output step
fails are the concatenation, over the traces in document order, of the records built
for the events of the trace in their order; the `k`-th data row is the record built
from the `k`-th event of that traversal; and two such calls write the same rows. -/
theorem rows_follow_document_order (env₁ env₂ : Env) (header keys : List String) (xes : XES)
    (hvalid : ∀ t ∈ xes.Trace, t.StringAttributes ≠ [])
    (h₁ : env₁.succeeds) (h₂ : env₂.succeeds) :
    ∃ rows,
      ConvertXESToCSV env₁ header keys xes = ⟨.returned none, header :: rows, none⟩ ∧
      ConvertXESToCSV env₂ header keys xes = ⟨.returned none, header :: rows, none⟩ ∧
      rows.map some = xes.Trace.flatMap (fun t => t.Event.map (buildRecord keys t)) ∧
      rows.length = (allEvents xes).length ∧
      (∀ (k : Nat) (t : Trace) (e : Event), (allEvents xes)[k]? = some (t, e) →
        ∃ row, rows[k]? = some row ∧ buildRecord keys t e = some row) := by
  obtain ⟨hc₁, hb₁, hw₁, hf₁⟩ := h₁
  obtain ⟨hc₂, hb₂, hw₂, hf₂⟩ := h₂
  have hmap : (dataRows keys xes).map some
      = xes.Trace.flatMap (fun t => t.Event.map (buildRecord keys t)) :=
    map_some_rows keys xes.Trace hvalid
  have hall : (dataRows keys xes).map some
      = (allEvents xes).map (fun te => buildRecord keys te.1 te.2) := by
    rw [hmap, allEvents, map_allEvents]
  refine ⟨dataRows keys xes, ?_, ?_, hmap, ?_, ?_⟩
  · rw [convert_ok env₁ header keys xes hvalid hc₁ hb₁ hw₁, hf₁]
  · rw [convert_ok env₂ header keys xes hvalid hc₂ hb₂ hw₂, hf₂]
  · have := congrArg List.length hall
    simpa using this
  · intro k t e hk
    have h1 : ((dataRows keys xes).map some)[k]? = some (buildRecord keys t e) := by
      rw [hall, List.getElem?_map, hk]
      rfl
    rw [List.getElem?_map] at h1
    cases hrow : (dataRows keys xes)[k]? with
    | none => rw [hrow] at h1; cases h1
    | some row =>
      rw [hrow] at h1
      simp only [Option.map_some', Option.some.injEq] at h1
      exact ⟨row, rfl, h1.symm⟩

/-- C11, witness: the scenario document written twice in the environment where
nothing fails. -/
theorem rows_follow_document_order_witness :
    (∀ t ∈ scenarioDoc.Trace, t.StringAttributes ≠ []) ∧
    ∃ rows,
      ConvertXESToCSV Env.healthy ["h"] ["activity", "timestamp"] scenarioDoc
        = ⟨.returned none, ["h"] :: rows, none⟩ ∧
      ConvertXESToCSV Env.healthy ["h"] ["activity", "timestamp"] scenarioDoc
        = ⟨.returned none, ["h"] :: rows, none⟩ ∧
      rows.map some
        = scenarioDoc.Trace.flatMap
            (fun t => t.Event.map (buildRecord ["activity", "timestamp"] t)) ∧
      rows.length = (allEvents scenarioDoc).length ∧
      (∀ (k : Nat) (t : Trace) (e : Event), (allEvents scenarioDoc)[k]? = some (t, e) →
        ∃ row, rows[k]? = some row ∧ buildRecord ["activity", "timestamp"] t e = some row) :=
  ⟨by decide,
    rows_follow_document_order Env.healthy Env.healthy ["h"] ["activity", "timestamp"]
      scenarioDoc (by decide) ⟨rfl, rfl, fun _ => rfl, rfl⟩ ⟨rfl, rfl, fun _ => rfl, rfl⟩⟩

/-- C12. For the document without traces, whatever the map order, `GetXESColumn`
returns no key and the header `case:concept:name`, and `ConvertXESToCSV` called with
them, no output step failing, writes the header row and no data row and returns
`nil`. -/
theorem empty_document_table (range : MapRange) (env : Env) (henv : env.succeeds) :
    (GetXESColumn range (.ok emptyDoc)).keys = [] ∧
    (GetXESColumn range (.ok emptyDoc)).header = ["case:concept:name"] ∧
    (GetXESColumn range (.ok emptyDoc)).err = none ∧
    ConvertXESToCSV env (GetXESColumn range (.ok emptyDoc)).header
        (GetXESColumn range (.ok emptyDoc)).keys (GetXESColumn range (.ok emptyDoc)).xes
      = ⟨.returned none, [["case:concept:name"]], none⟩ := by
  obtain ⟨hc, hb, hw, hf⟩ := henv
  have hkeys : range.visit (scanKeys emptyDoc) = [] := by
    have h := range.perm (scanKeys emptyDoc)
    have h0 : scanKeys emptyDoc = [] := rfl
    rw [h0] at h
    exact List.Perm.eq_nil h
  simp only [GetXESColumn, hkeys]
  refine ⟨trivial, rfl, trivial, ?_⟩
  simp [ConvertXESToCSV, hc, hb, hw, hf, traceLoop, emptyDoc, buildHeader]

/-- C12, witness: the empty document converted in the environment where nothing
fails, the map ranged over in stored order. -/
theorem empty_document_witness :
    (GetXESColumn MapRange.stored (.ok emptyDoc)).keys = [] ∧
    (GetXESColumn MapRange.stored (.ok emptyDoc)).header = ["case:concept:name"] ∧
    (GetXESColumn MapRange.stored (.ok emptyDoc)).err = none ∧
    ConvertXESToCSV Env.healthy (GetXESColumn MapRange.stored (.ok emptyDoc)).header
        (GetXESColumn MapRange.stored (.ok emptyDoc)).keys
        (GetXESColumn MapRange.stored (.ok emptyDoc)).xes
      = ⟨.returned none, [["case:concept:name"]], none⟩ :=
  empty_document_table MapRange.stored Env.healthy ⟨rfl, rfl, fun _ => rfl, rfl⟩

/-! ## Safety of row construction -/

theorem eventLoop_no_panic (env : Env) (errs : Option String) (keys : List String)
    (t : Trace) (ht : t.StringAttributes ≠ []) (es : List Event)
    (records : List (List String)) (run : Run)
    (h : eventLoop env errs keys t es records = .error run) : run.outcome ≠ .panicked := by
  obtain ⟨first, others, hfirst⟩ := List.exists_cons_of_ne_nil ht
  induction es generalizing records with
  | nil => simp [eventLoop] at h
  | cons e es ih =>
    simp only [eventLoop, buildRecord_eq keys t e first others hfirst] at h
    split at h
    · simp only [Except.error.injEq] at h
      subst h
      simp
    · exact ih _ h

theorem traceLoop_no_panic (env : Env) (errs : Option String) (keys : List String)
    (ts : List Trace) (hts : ∀ t ∈ ts, t.StringAttributes ≠ [])
    (records : List (List String)) (run : Run)
    (h : traceLoop env errs keys ts records = .error run) : run.outcome ≠ .panicked := by
  induction ts generalizing records with
  | nil => simp [traceLoop] at h
  | cons t ts ih =>
    simp only [traceLoop] at h
    split at h
    · rename_i run1 hev
      simp only [Except.error.injEq] at h
      subst h
      exact eventLoop_no_panic env errs keys t (hts t (List.mem_cons_self _ _)) _ _ _ hev
    · exact ih (fun u hu => hts u (List.mem_cons_of_mem _ hu)) _ h

theorem convert_no_panic (env : Env) (header keys : List String) (xes : XES)
    (hvalid : ∀ t ∈ xes.Trace, t.StringAttributes ≠ []) :
    (ConvertXESToCSV env header keys xes).outcome ≠ .panicked := by
  unfold ConvertXESToCSV
  split
  · simp
  · simp only
    split
    · simp
    · split
      · simp
      · split
        · rename_i run hrun
          exact traceLoop_no_panic env _ keys xes.Trace hvalid _ _ hrun
        · simp

/-- C16. When every trace of the document has a string attribute, row construction
never indexes out of range, for every keys list: an index returned by `indexOf` that
is not `-1` lies in `0 .. len(keys)-1`, so each attribute write succeeds on a record of
width `len(keys)+1`; `StringAttributes[0]` exists and the write at index `len(keys)`
succeeds, so no record panics; and no call of `ConvertXESToCSV`, in whatever
environment, ends in a panic. -/
theorem row_construction_in_range (env : Env) (header keys : List String) (xes : XES)
    (hvalid : ∀ t ∈ xes.Trace, t.StringAttributes ≠ []) :
    (∀ k : String, indexOf keys k ≠ -1 → 0 ≤ indexOf keys k ∧ indexOf keys k < keys.length) ∧
    (∀ (record : List String) (k v : String), record.length = keys.length + 1 →
      (putAttr keys record k v).isSome) ∧
    (∀ (record : List String) (v : String), record.length = keys.length + 1 →
      (setCell record keys.length v).isSome) ∧
    (∀ t ∈ xes.Trace, (t.StringAttributes.get? 0).isSome ∧
      ∀ e : Event, (buildRecord keys t e).isSome) ∧
    (ConvertXESToCSV env header keys xes).outcome ≠ .panicked := by
  refine ⟨?_, ?_, ?_, ?_, convert_no_panic env header keys xes hvalid⟩
  · intro k hk
    by_cases hm : k ∈ keys
    · rw [indexOf_of_mem hm]
      have := List.indexOf_lt_length.2 hm
      constructor <;> omega
    · exact absurd (indexOf_of_not_mem hm) hk
  · intro record k v hlen
    rw [putAttr_eq keys record k v hlen]
    rfl
  · intro record v hlen
    unfold setCell
    rw [if_pos (by constructor <;> omega)]
    rfl
  · intro t ht
    obtain ⟨first, others, hfirst⟩ := List.exists_cons_of_ne_nil (hvalid t ht)
    refine ⟨by rw [hfirst]; rfl, fun e => ?_⟩
    rw [buildRecord_eq keys t e first others hfirst]
    rfl

/-- C16, witness: the scenario document with a keys list that holds one of its two
keys, in the environment where writing the first data row fails. -/
theorem row_construction_in_range_witness :
    (∀ t ∈ scenarioDoc.Trace, t.StringAttributes ≠ []) ∧
    (∀ k : String, indexOf ["activity"] k ≠ -1 →
      0 ≤ indexOf ["activity"] k ∧ indexOf ["activity"] k < ["activity"].length) ∧
    (∀ (record : List String) (k v : String), record.length = ["activity"].length + 1 →
      (putAttr ["activity"] record k v).isSome) ∧
    (∀ (record : List String) (v : String), record.length = ["activity"].length + 1 →
      (setCell record ["activity"].length v).isSome) ∧
    (∀ t ∈ scenarioDoc.Trace, (t.StringAttributes.get? 0).isSome ∧
      ∀ e : Event, (buildRecord ["activity"] t e).isSome) ∧
    (ConvertXESToCSV Env.rowWriteFails ["h"] ["activity"] scenarioDoc).outcome ≠ .panicked :=
  ⟨by decide,
    row_construction_in_range Env.rowWriteFails ["h"] ["activity"] scenarioDoc (by decide)⟩

/-- C17. With the keys returned by `GetXESColumn` for the same document, whatever the
map order, `indexOf` finds the key of every string attribute and of every date
attribute of every event of every trace: no attribute is dropped. -/
theorem no_attribute_dropped (range : MapRange) (xes : XES) (t : Trace) (ht : t ∈ xes.Trace)
    (e : Event) (he : e ∈ t.Event) :
    (∀ a ∈ e.StringAttributes, indexOf (GetXESColumn range (.ok xes)).keys a.Key ≠ -1) ∧
    (∀ a ∈ e.DateAttributes, indexOf (GetXESColumn range (.ok xes)).keys a.Key ≠ -1) := by
  have hfound : ∀ k : String, k ∈ (GetXESColumn range (.ok xes)).keys →
      indexOf (GetXESColumn range (.ok xes)).keys k ≠ -1 := by
    intro k hk
    rw [indexOf_of_mem hk]
    omega
  constructor
  · intro a ha
    apply hfound
    rw [mem_keys_iff, mem_eventKeys]
    exact ⟨t, ht, e, he, Or.inl ⟨a, ha, rfl⟩⟩
  · intro a ha
    apply hfound
    rw [mem_keys_iff, mem_eventKeys]
    exact ⟨t, ht, e, he, Or.inr ⟨a, ha, rfl⟩⟩

/-- C17, witness: the second event of the scenario document, which carries a date
attribute, with the map ranged over backwards. -/
theorem no_attribute_dropped_witness :
    (⟨[⟨[⟨"activity", "submit"⟩], []⟩, ⟨[], [⟨"timestamp", "2024-01-01"⟩]⟩],
        [⟨"concept:name", "Case1"⟩]⟩ : Trace) ∈ scenarioDoc.Trace ∧
    (∀ a ∈ (⟨[], [⟨"timestamp", "2024-01-01"⟩]⟩ : Event).StringAttributes,
      indexOf (GetXESColumn MapRange.backwards (.ok scenarioDoc)).keys a.Key ≠ -1) ∧
    (∀ a ∈ (⟨[], [⟨"timestamp", "2024-01-01"⟩]⟩ : Event).DateAttributes,
      indexOf (GetXESColumn MapRange.backwards (.ok scenarioDoc)).keys a.Key ≠ -1) :=
  ⟨by decide,
    no_attribute_dropped MapRange.backwards scenarioDoc
      ⟨[⟨[⟨"activity", "submit"⟩], []⟩, ⟨[], [⟨"timestamp", "2024-01-01"⟩]⟩],
        [⟨"concept:name", "Case1"⟩]⟩ (by decide)
      ⟨[], [⟨"timestamp", "2024-01-01"⟩]⟩ (by decide)⟩

/-! ## Unmatched keys, width of the rows, names of the columns -/

theorem putAttr_absent (keys record : List String) (k v : String) (hk : k ∉ keys) :
    putAttr keys record k v = some record := by
  simp [putAttr, indexOf_of_not_mem hk]

theorem foldlM_skip {α β : Type} (f : β → α → Option β) (a : α) (hskip : ∀ b, f b a = some b)
    (pre post : List α) (init : β) :
    (pre ++ a :: post).foldlM f init = (pre ++ post).foldlM f init := by
  rw [List.foldlM_append, List.foldlM_append]
  congr 1
  funext b
  rw [List.foldlM_cons, hskip b]
  rfl

/-- C18. For every keys list, an attribute whose key does not occur in `keys` leaves
the record as it is and raises no error, and the record built for an event (or the
panic, when the trace has no string attribute) is the one built for the event with
that attribute removed, be it a string attribute or a date attribute. -/
theorem unmatched_key_is_dropped (keys : List String) (t : Trace) (k : String)
    (hk : k ∉ keys) :
    (∀ (record : List String) (v : String), putAttr keys record k v = some record) ∧
    (∀ (pre post : List StringAttribute) (dates : List DateAttribute) (v : String),
      buildRecord keys t ⟨pre ++ ⟨k, v⟩ :: post, dates⟩
        = buildRecord keys t ⟨pre ++ post, dates⟩) ∧
    (∀ (strings : List StringAttribute) (pre post : List DateAttribute) (v : String),
      buildRecord keys t ⟨strings, pre ++ ⟨k, v⟩ :: post⟩
        = buildRecord keys t ⟨strings, pre ++ post⟩) := by
  refine ⟨fun record v => putAttr_absent keys record k v hk, ?_, ?_⟩
  · intro pre post dates v
    unfold buildRecord
    simp only
    rw [foldlM_skip (fun r (stringAttr : StringAttribute) =>
      putAttr keys r stringAttr.Key stringAttr.Value) ⟨k, v⟩
      (fun b => putAttr_absent keys b k v hk)]
  · intro strings pre post v
    unfold buildRecord
    simp only
    congr 1
    funext record
    rw [foldlM_skip (fun r (dateAttr : DateAttribute) =>
      putAttr keys r dateAttr.Key dateAttr.Value) ⟨k, v⟩
      (fun b => putAttr_absent keys b k v hk)]

/-- C18, witness: the key `resource` with the keys list `activity`, `timestamp`. -/
theorem unmatched_key_witness :
    "resource" ∉ ["activity", "timestamp"] ∧
    (∀ (record : List String) (v : String),
      putAttr ["activity", "timestamp"] record "resource" v = some record) ∧
    (∀ (pre post : List StringAttribute) (dates : List DateAttribute) (v : String),
      buildRecord ["activity", "timestamp"] ⟨[], [⟨"concept:name", "Case1"⟩]⟩
          ⟨pre ++ ⟨"resource", v⟩ :: post, dates⟩
        = buildRecord ["activity", "timestamp"] ⟨[], [⟨"concept:name", "Case1"⟩]⟩
          ⟨pre ++ post, dates⟩) ∧
    (∀ (strings : List StringAttribute) (pre post : List DateAttribute) (v : String),
      buildRecord ["activity", "timestamp"] ⟨[], [⟨"concept:name", "Case1"⟩]⟩
          ⟨strings, pre ++ ⟨"resource", v⟩ :: post⟩
        = buildRecord ["activity", "timestamp"] ⟨[], [⟨"concept:name", "Case1"⟩]⟩
          ⟨strings, pre ++ post⟩) :=
  ⟨by decide,
    unmatched_key_is_dropped ["activity", "timestamp"] ⟨[], [⟨"concept:name", "Case1"⟩]⟩
      "resource" (by decide)⟩

theorem length_of_mem_rows (keys : List String) (ts : List Trace)
    (hts : ∀ t ∈ ts, t.StringAttributes ≠ []) (row : List String)
    (hrow : row ∈ ts.flatMap (fun t => t.Event.filterMap (buildRecord keys t))) :
    row.length = keys.length + 1 := by
  simp only [List.mem_flatMap, List.mem_filterMap] at hrow
  obtain ⟨t, ht, e, _, hb⟩ := hrow
  obtain ⟨first, others, hfirst⟩ := List.exists_cons_of_ne_nil (hts t ht)
  rw [buildRecord_eq keys t e first others hfirst] at hb
  rw [← Option.some.inj hb]
  simp [foldl_putCell_length]

/-- C19. For a document in which every trace has a string attribute, with the header
and keys returned by `GetXESColumn`, the record built for every event has exactly
`len(keys)+1` cells, which is the number of columns of the header row; so has every
data row of the written table. -/
theorem rows_are_rectangular (range : MapRange) (xes : XES)
    (hvalid : ∀ t ∈ xes.Trace, t.StringAttributes ≠ []) :
    (∀ t ∈ xes.Trace, ∀ e ∈ t.Event, ∃ record,
      buildRecord (GetXESColumn range (.ok xes)).keys t e = some record ∧
      record.length = ((GetXESColumn range (.ok xes)).keys).length + 1 ∧
      record.length = ((GetXESColumn range (.ok xes)).header).length) ∧
    (∀ row ∈ dataRows (GetXESColumn range (.ok xes)).keys xes,
      row.length = ((GetXESColumn range (.ok xes)).keys).length + 1 ∧
      row.length = ((GetXESColumn range (.ok xes)).header).length) := by
  have hheader : ((GetXESColumn range (.ok xes)).header).length
      = ((GetXESColumn range (.ok xes)).keys).length + 1 := by
    simp [GetXESColumn, buildHeader_eq]
  constructor
  · intro t ht e _
    obtain ⟨first, others, hfirst⟩ := List.exists_cons_of_ne_nil (hvalid t ht)
    refine ⟨_, buildRecord_eq _ t e first others hfirst, ?_⟩
    rw [hheader]
    simp [foldl_putCell_length]
  · intro row hrow
    have := length_of_mem_rows _ xes.Trace hvalid row hrow
    rw [hheader]
    exact ⟨this, this⟩

/-- C19, witness: the scenario document, the map ranged over in stored order. -/
theorem rows_are_rectangular_witness :
    (∀ t ∈ scenarioDoc.Trace, t.StringAttributes ≠ []) ∧
    (∀ t ∈ scenarioDoc.Trace, ∀ e ∈ t.Event, ∃ record,
      buildRecord (GetXESColumn MapRange.stored (.ok scenarioDoc)).keys t e = some record ∧
      record.length = ((GetXESColumn MapRange.stored (.ok scenarioDoc)).keys).length + 1 ∧
      record.length = ((GetXESColumn MapRange.stored (.ok scenarioDoc)).header).length) ∧
    (∀ row ∈ dataRows (GetXESColumn MapRange.stored (.ok scenarioDoc)).keys scenarioDoc,
      row.length = ((GetXESColumn MapRange.stored (.ok scenarioDoc)).keys).length + 1 ∧
      row.length = ((GetXESColumn MapRange.stored (.ok scenarioDoc)).header).length) :=
  ⟨by decide, rows_are_rectangular MapRange.stored scenarioDoc (by decide)⟩

/-- C20. The column names of the header returned by `GetXESColumn` are pairwise
distinct when the attribute keys of the events of the document stay distinct after
trimming and none of them trims to `case:concept:name`. Without that proviso they need
not be: the keys `a` and ` a` of `spaceKeyDoc` give two columns named `a`, whatever the
map order. -/
theorem header_names_distinct (range : MapRange) (xes : XES)
    (hinj : ∀ k₁ ∈ xes.eventKeys, ∀ k₂ ∈ xes.eventKeys,
      TrimSpace k₁ = TrimSpace k₂ → k₁ = k₂)
    (hcase : ∀ k ∈ xes.eventKeys, TrimSpace k ≠ "case:concept:name") :
    ((GetXESColumn range (.ok xes)).header).Nodup ∧
    ¬ ((GetXESColumn range (.ok spaceKeyDoc)).header).Nodup := by
  constructor
  · have hnodup : ((GetXESColumn range (.ok xes)).keys).Nodup := by
      simp only [GetXESColumn]
      rw [(range.perm _).nodup_iff, scanKeys_eq]
      exact nodup_keepFirst _
    have hmem := mem_keys_iff range xes
    simp only [GetXESColumn, buildHeader_eq] at hnodup hmem ⊢
    rw [List.nodup_append]
    refine ⟨?_, List.nodup_singleton _, ?_⟩
    · apply List.Nodup.map_on _ hnodup
      intro k₁ h₁ k₂ h₂ heq
      exact hinj k₁ ((hmem k₁).1 h₁) k₂ ((hmem k₂).1 h₂) heq
    · intro a ha hb
      simp only [List.mem_singleton] at hb
      subst hb
      obtain ⟨k, hk, hkeq⟩ := List.mem_map.1 ha
      exact hcase k ((hmem k).1 hk) hkeq
  · have hscan : scanKeys spaceKeyDoc = ["a", " a"] := by decide
    have hperm := range.perm (scanKeys spaceKeyDoc)
    rw [hscan] at hperm
    simp only [GetXESColumn, hscan]
    rcases perm_pair (by decide) hperm with h | h <;> rw [h] <;> decide

/-- C20, witness: the scenario document, whose keys `activity` and `timestamp` are
already trimmed and distinct. -/
theorem header_names_distinct_witness :
    (∀ k₁ ∈ scenarioDoc.eventKeys, ∀ k₂ ∈ scenarioDoc.eventKeys,
      TrimSpace k₁ = TrimSpace k₂ → k₁ = k₂) ∧
    (∀ k ∈ scenarioDoc.eventKeys, TrimSpace k ≠ "case:concept:name") ∧
    ((GetXESColumn MapRange.backwards (.ok scenarioDoc)).header).Nodup ∧
    ¬ ((GetXESColumn MapRange.backwards (.ok spaceKeyDoc)).header).Nodup :=
  ⟨by decide, by decide,
    header_names_distinct MapRange.backwards scenarioDoc (by decide) (by decide)⟩

/-! ## `GetFileColumns` -/

theorem trimLeft_data (col : List Char) :
    (TrimLeft ⟨col⟩ "\uFEFF ").data = col.dropWhile inCutset := by
  unfold TrimLeft
  simp only
  congr 1
  funext c
  simp [inCutset]

theorem getFileColumns_ok (file : Stream) (r : FileColumns)
    (h : GetFileColumns file = some r) (hok : r.err = none) :
    ∃ parsed, Reader.Read file = some parsed ∧ parsed.err = none ∧
      r.columns = parsed.fields.map (fun col => TrimLeft ⟨col⟩ "\uFEFF ") ∧
      r.delimiter = String.singleton Reader.Comma := by
  unfold GetFileColumns at h
  cases hread : Reader.Read file with
  | none => rw [hread] at h; cases h
  | some parsed =>
    rw [hread] at h
    simp only at h
    split at h
    · rename_i herr
      simp only [Option.some.injEq] at h
      subst h
      exact absurd hok herr
    · rename_i herr
      simp only [Option.some.injEq] at h
      subst h
      exact ⟨parsed, rfl, by simpa using herr, rfl, rfl⟩

/-- C13, as amended. When `GetFileColumns` succeeds, each returned column name is the
corresponding field of the first record with its leading U+FEFF and space (U+0020)
characters stripped and nothing else changed: the field is a run of such characters
followed by the name, trailing characters kept. So no returned name starts with U+FEFF
or with a space; other white space, such as a tab, is not stripped. -/
theorem columns_are_stripped_fields (file : Stream) (r : FileColumns)
    (h : GetFileColumns file = some r) (hok : r.err = none) :
    ∃ parsed, Reader.Read file = some parsed ∧ parsed.err = none ∧
      r.columns.length = parsed.fields.length ∧
      ∀ (i : Nat) (field : List Char), parsed.fields[i]? = some field →
        ∃ (col : String) (lead : List Char), r.columns[i]? = some col ∧
          field = lead ++ col.data ∧
          (∀ c ∈ lead, c = '\uFEFF' ∨ c = ' ') ∧
          (∀ c, col.data.head? = some c → c ≠ '\uFEFF' ∧ c ≠ ' ') := by
  obtain ⟨parsed, hread, herr, hcols, _⟩ := getFileColumns_ok file r h hok
  refine ⟨parsed, hread, herr, by simp [hcols], ?_⟩
  intro i field hi
  refine ⟨TrimLeft ⟨field⟩ "\uFEFF ", field.takeWhile inCutset, ?_, ?_, ?_, ?_⟩
  · rw [hcols, List.getElem?_map, hi]
    rfl
  · rw [trimLeft_data, List.takeWhile_append_dropWhile]
  · intro c hc
    have := List.mem_takeWhile_imp hc
    simpa [inCutset] using this
  · intro c hc
    rw [trimLeft_data] at hc
    have := List.head?_dropWhile_not inCutset field
    rw [hc] at this
    simpa [inCutset] using this

/-- C13, witness: a header line whose first name follows a byte-order mark and a
space. -/
theorem columns_are_stripped_witness :
    GetFileColumns ⟨"\uFEFF id, name \n1,2\n".data, none⟩
        = some ⟨["id", "name "], ",", none⟩ ∧
    ∃ parsed, Reader.Read ⟨"\uFEFF id, name \n1,2\n".data, none⟩ = some parsed ∧
      parsed.err = none ∧
      (["id", "name "] : List String).length = parsed.fields.length ∧
      ∀ (i : Nat) (field : List Char), parsed.fields[i]? = some field →
        ∃ (col : String) (lead : List Char),
          (["id", "name "] : List String)[i]? = some col ∧
          field = lead ++ col.data ∧
          (∀ c ∈ lead, c = '\uFEFF' ∨ c = ' ') ∧
          (∀ c, col.data.head? = some c → c ≠ '\uFEFF' ∧ c ≠ ' ') :=
  ⟨by decide,
    columns_are_stripped_fields ⟨"\uFEFF id, name \n1,2\n".data, none⟩
      ⟨["id", "name "], ",", none⟩ (by decide) rfl⟩

/-- C13, counterexample: on the line `<tab>id,name` `GetFileColumns` succeeds and
returns the first name with its tab, a white-space character, still in front. -/
theorem columns_are_stripped_counterexample :
    ¬ ∀ r, GetFileColumns ⟨"\tid,name\n".data, none⟩ = some r →
      ∀ col ∈ r.columns, ∀ c, col.data.head? = some c → c ≠ '\uFEFF' ∧ isSpace c = false := by
  intro hclaim
  have h := hclaim ⟨["\tid", "name"], ",", none⟩ (by decide) "\tid" (by decide) '\t' (by decide)
  revert h
  decide

/-- C14, as amended. When `GetFileColumns` succeeds, the returned delimiter is the
one-character string `,`: the `Comma` that `csv.NewReader` sets and the reader splits
the first record at. It is the same for every input; nothing is detected from the
input. -/
theorem delimiter_is_comma (file : Stream) (r : FileColumns)
    (h : GetFileColumns file = some r) (hok : r.err = none) :
    r.delimiter = "," ∧ r.delimiter.length = 1 ∧
      r.delimiter = String.singleton Reader.Comma := by
  obtain ⟨_, _, _, _, hd⟩ := getFileColumns_ok file r h hok
  rw [hd]
  decide

/-- C14, witness: a comma-separated header line. -/
theorem delimiter_is_comma_witness :
    GetFileColumns ⟨"a,b\n".data, none⟩ = some ⟨["a", "b"], ",", none⟩ ∧
    (",").length = 1 ∧ "," = String.singleton Reader.Comma :=
  ⟨by decide,
    (delimiter_is_comma ⟨"a,b\n".data, none⟩ ⟨["a", "b"], ",", none⟩ (by decide) rfl).2⟩

/-- C14, counterexample: a file whose fields are separated by semicolons comes back
as one column with the delimiter `,`; the semicolon is not detected. -/
theorem delimiter_counterexample :
    GetFileColumns ⟨"a;b;c\n1;2;3\n".data, none⟩ = some ⟨["a;b;c"], ",", none⟩ ∧
    GetFileColumns ⟨"a,b,c\n1,2,3\n".data, none⟩ = some ⟨["a", "b", "c"], ",", none⟩ := by
  decide

theorem splitLine_of_not_mem {text : List Char} (h : '\n' ∉ text) : splitLine text = none := by
  induction text with
  | nil => rfl
  | cons c cs ih =>
    simp only [List.mem_cons, not_or] at h
    have hc : c ≠ '\n' := fun e => h.1 e.symm
    simp [splitLine, hc, ih h.2]

theorem normalizeNL_of_not_mem {line : List Char} (h : '\n' ∉ line) :
    normalizeNL line = line := by
  apply normalizeNL_eq_self
  intro p hp
  apply h
  rw [hp]
  simp

theorem readLine_clean (r : Stream) (hfail : r.fail = none) :
    ((readLine r).2.1 = none ∨ (readLine r).2.1 = some .eof) ∧ (readLine r).2.2.fail = none := by
  unfold readLine
  split
  · exact ⟨Or.inl rfl, hfail⟩
  · split
    · rename_i e he
      rw [hfail] at he
      cases he
    · split
      · exact ⟨Or.inl rfl, hfail⟩
      · exact ⟨Or.inr rfl, hfail⟩

theorem parseStep_clean (s : ParseState) (herr : s.errRead = none) (hfail : s.r.fail = none) :
    (∀ s1, parseStep s = .inl s1 → s1.errRead = none ∧ s1.r.fail = none) ∧
    (∀ p, parseStep s = .inr p → p.err = none) := by
  obtain ⟨line, r, errRead, fields, quoted⟩ := s
  simp only at herr hfail
  subst herr
  have hclean := readLine_clean r hfail
  constructor
  · intro s1 h
    unfold parseStep at h
    cases quoted with
    | none =>
      simp only at h
      split at h
      · split at h
        · simp only [Sum.inl.injEq] at h
          subst h
          exact ⟨rfl, hfail⟩
        · simp at h
      · simp only [Sum.inl.injEq] at h
        subst h
        exact ⟨rfl, hfail⟩
    | some buf =>
      simp only at h
      split at h
      · split at h
        · simp only [Sum.inl.injEq] at h
          subst h
          exact ⟨rfl, hfail⟩
        · split at h
          · simp only [Sum.inl.injEq] at h
            subst h
            exact ⟨rfl, hfail⟩
          · split at h
            · simp at h
            · simp only [Sum.inl.injEq] at h
              subst h
              exact ⟨rfl, hfail⟩
      · split at h
        · split at h
          · simp at h
          · rcases hrl : readLine r with ⟨l1, e1, r1⟩
            rw [hrl] at h hclean
            simp only [Sum.inl.injEq] at h hclean
            subst h
            simp only
            refine ⟨?_, hclean.2⟩
            rcases hclean.1 with e | e <;> simp [e]
        · simp at h
  · intro p h
    unfold parseStep at h
    cases quoted with
    | none =>
      simp only at h
      split at h
      · split at h
        · simp at h
        · simp only [Sum.inr.injEq] at h
          subst h
          rfl
      · simp at h
    | some buf =>
      simp only at h
      split at h
      · split at h
        · simp at h
        · split at h
          · simp at h
          · split at h
            · simp only [Sum.inr.injEq] at h
              subst h
              rfl
            · simp at h
      · split at h
        · split at h
          · simp only [Sum.inr.injEq] at h
            subst h
            rfl
          · rcases hrl : readLine r with ⟨l1, e1, r1⟩
            rw [hrl] at h
            simp at h
        · simp only [Sum.inr.injEq] at h
          subst h
          rfl

theorem parseLoop_clean (n : Nat) (s : ParseState) (p : Parsed)
    (herr : s.errRead = none) (hfail : s.r.fail = none) (h : parseLoop n s = some p) :
    p.err = none := by
  induction n generalizing s with
  | zero => simp [parseLoop] at h
  | succ n ih =>
    simp only [parseLoop] at h
    cases hstep : parseStep s with
    | inl s1 =>
      rw [hstep] at h
      obtain ⟨h1, h2⟩ := (parseStep_clean s herr hfail).1 s1 hstep
      exact ih s1 h1 h2 h
    | inr q =>
      rw [hstep] at h
      simp only [Option.some.injEq] at h
      subst h
      exact (parseStep_clean s herr hfail).2 q hstep

theorem parseStep_failed (s : ParseState) (x : ReadErr) (herr : s.errRead = some x) :
    (∀ s1, parseStep s = .inl s1 → s1.errRead = some x) ∧
    (∀ p, parseStep s = .inr p → p.err = some x) := by
  obtain ⟨line, r, errRead, fields, quoted⟩ := s
  simp only at herr
  subst herr
  constructor
  · intro s1 h
    unfold parseStep at h
    cases quoted with
    | none =>
      simp only at h
      split at h
      · split at h
        · simp only [Sum.inl.injEq] at h
          subst h
          rfl
        · simp at h
      · simp only [Sum.inl.injEq] at h
        subst h
        rfl
    | some buf =>
      simp only at h
      split at h
      · split at h
        · simp only [Sum.inl.injEq] at h
          subst h
          rfl
        · split at h
          · simp only [Sum.inl.injEq] at h
            subst h
            rfl
          · split at h
            · simp at h
            · simp only [Sum.inl.injEq] at h
              subst h
              rfl
      · split at h
        · simp at h
        · simp at h
  · intro p h
    unfold parseStep at h
    cases quoted with
    | none =>
      simp only at h
      split at h
      · split at h
        · simp at h
        · simp only [Sum.inr.injEq] at h
          subst h
          rfl
      · simp at h
    | some buf =>
      simp only at h
      split at h
      · split at h
        · simp at h
        · split at h
          · simp at h
          · split at h
            · simp only [Sum.inr.injEq] at h
              subst h
              rfl
            · simp at h
      · split at h
        · simp only [ne_eq, reduceCtorEq, not_false_eq_true, if_true, Sum.inr.injEq] at h
          subst h
          rfl
        · simp only [Sum.inr.injEq] at h
          subst h
          rfl

theorem parseLoop_failed (n : Nat) (s : ParseState) (p : Parsed) (x : ReadErr)
    (herr : s.errRead = some x) (h : parseLoop n s = some p) : p.err = some x := by
  induction n generalizing s with
  | zero => simp [parseLoop] at h
  | succ n ih =>
    simp only [parseLoop] at h
    cases hstep : parseStep s with
    | inl s1 =>
      rw [hstep] at h
      exact ih s1 ((parseStep_failed s x herr).1 s1 hstep) h
    | inr q =>
      rw [hstep] at h
      simp only [Option.some.injEq] at h
      subst h
      exact (parseStep_failed s x herr).2 q hstep

theorem lengthNL_le_one (b : List Char) : lengthNL b ≤ 1 := by
  unfold lengthNL
  split <;> omega

theorem lengthNL_of_not_mem {b : List Char} (h : '\n' ∉ b) : lengthNL b = 0 := by
  unfold lengthNL
  rw [if_neg]
  intro hlast
  exact h (List.mem_of_getLast?_eq_some hlast)

theorem readLine_line_not_empty (c : Char) (rest : List Char) (hc : c ≠ '\n')
    (hcr : c = '\r' → rest ≠ [] ∧ rest.head? ≠ some '\n') :
    (readLine ⟨c :: rest, none⟩).2.1 = none ∧
      (readLine ⟨c :: rest, none⟩).1.length ≠ lengthNL (readLine ⟨c :: rest, none⟩).1 := by
  unfold readLine
  simp only
  cases hsplit : splitLine (c :: rest) with
  | some lr =>
    obtain ⟨l, rest1⟩ := lr
    simp only
    refine ⟨trivial, ?_⟩
    simp only [splitLine, if_neg hc] at hsplit
    cases hsplit2 : splitLine rest with
    | none => rw [hsplit2] at hsplit; cases hsplit
    | some lr2 =>
      obtain ⟨l2, rest2⟩ := lr2
      rw [hsplit2] at hsplit
      simp only [Option.some.injEq, Prod.mk.injEq] at hsplit
      obtain ⟨rfl, rfl⟩ := hsplit
      obtain ⟨hrest, hl2⟩ := splitLine_eq hsplit2
      have hpos := List.length_pos.2 hl2
      have hNL := lengthNL_le_one (normalizeNL (c :: l2))
      unfold normalizeNL at hNL ⊢
      split
      · rename_i hcond
        rw [if_pos hcond] at hNL
        simp only [List.length_append, List.length_take, List.length_cons, List.length_singleton,
          List.length_nil] at hNL ⊢
        have hlen2 : l2.length ≠ 1 := by
          intro h1
          obtain ⟨d, rfl⟩ := List.length_eq_one.1 h1
          have hdrop := hcond.2
          simp only [List.length_cons, List.length_singleton, List.length_nil, Nat.reduceAdd,
            Nat.sub_self, List.drop_zero, List.cons.injEq, and_true] at hdrop
          obtain ⟨rfl, rfl⟩ := hdrop
          have := (hcr rfl).2
          rw [hrest] at this
          simp at this
        omega
      · rename_i hcond
        rw [if_neg hcond] at hNL
        simp only [List.length_cons] at hNL ⊢
        omega
  | none =>
    simp only
    have hnl : '\n' ∉ c :: rest := splitLine_none hsplit
    rw [if_pos (by simp)]
    refine ⟨rfl, ?_⟩
    split
    · rename_i hlast
      have hrest : rest ≠ [] := by
        intro e
        subst e
        simp only [List.getLast?_singleton, Option.some.injEq] at hlast
        exact (hcr hlast).1 rfl
      have hnl2 : '\n' ∉ (c :: rest).dropLast :=
        fun hm => hnl (List.mem_of_mem_dropLast hm)
      rw [normalizeNL_of_not_mem hnl2, lengthNL_of_not_mem hnl2]
      have := List.length_pos.2 hrest
      simp only [List.length_dropLast, List.length_cons]
      omega
    · rw [normalizeNL_of_not_mem hnl, lengthNL_of_not_mem hnl]
      simp

theorem onlyEmptyLines_nl (rest : List Char) :
    onlyEmptyLines ('\n' :: rest) = onlyEmptyLines rest := by
  rw [onlyEmptyLines.eq_def]
  simp

theorem onlyEmptyLines_cr_nl (rest : List Char) :
    onlyEmptyLines ('\r' :: '\n' :: rest) = onlyEmptyLines rest := by
  rw [onlyEmptyLines.eq_def]
  simp

theorem onlyEmptyLines_other (c : Char) (rest : List Char) (hc : c ≠ '\n')
    (hcr : c = '\r' → rest ≠ [] ∧ rest.head? ≠ some '\n') :
    onlyEmptyLines (c :: rest) = false := by
  rw [onlyEmptyLines.eq_def]
  simp only [if_neg hc]
  split
  · rename_i hr
    have := hcr hr
    cases rest with
    | nil => exact absurd rfl this.1
    | cons d rest2 =>
      have hd : d ≠ '\n' := by simpa using this.2
      simp [hd]
  · rfl

theorem skipEmptyLines_spec (n : Nat) (data : List Char) (hn : data.length < n) :
    ∃ line e r, skipEmptyLines n ⟨data, none⟩ = some (line, e, r) ∧ r.fail = none ∧
      ((e = some .eof ∧ onlyEmptyLines data = true) ∨
        (e = none ∧ onlyEmptyLines data = false)) := by
  induction n generalizing data with
  | zero => omega
  | succ n ih =>
    cases data with
    | nil =>
      exact ⟨[], some .eof, ⟨[], none⟩, by simp [skipEmptyLines, readLine, splitLine], rfl,
        Or.inl ⟨rfl, rfl⟩⟩
    | cons c rest =>
      simp only [List.length_cons] at hn
      by_cases hc : c = '\n'
      · subst hc
        obtain ⟨l, e, r, h1, h2, h3⟩ := ih rest (by omega)
        refine ⟨l, e, r, ?_, h2, ?_⟩
        · simp [skipEmptyLines, readLine, splitLine, normalizeNL, lengthNL, h1]
        · rw [onlyEmptyLines_nl]
          exact h3
      · by_cases hcr : c = '\r' → rest ≠ [] ∧ rest.head? ≠ some '\n'
        · obtain ⟨h1, h2⟩ := readLine_line_not_empty c rest hc hcr
          have hclean := readLine_clean ⟨c :: rest, none⟩ rfl
          refine ⟨(readLine ⟨c :: rest, none⟩).1, (readLine ⟨c :: rest, none⟩).2.1,
            (readLine ⟨c :: rest, none⟩).2.2, ?_, hclean.2, Or.inr ⟨h1, ?_⟩⟩
          · simp only [skipEmptyLines]
            rw [if_neg (fun hboth => h2 hboth.2)]
          · exact onlyEmptyLines_other c rest hc hcr
        · simp only [Classical.not_imp, not_and_or, not_not] at hcr
          obtain ⟨rfl, hrest⟩ := hcr
          rcases hrest with hrest | hrest
          · subst hrest
            obtain ⟨l, e, r, h1, h2, h3⟩ := ih [] (by simp at hn ⊢; omega)
            refine ⟨l, e, r, ?_, h2, ?_⟩
            · simp [skipEmptyLines, readLine, splitLine, normalizeNL, lengthNL, h1]
            · have h0 : onlyEmptyLines ['\r'] = true := by decide
              have h00 : onlyEmptyLines [] = true := by decide
              rw [h0]
              rw [h00] at h3
              exact h3
          · cases rest with
            | nil => simp at hrest
            | cons d rest2 =>
              simp only [List.head?_cons, Option.some.injEq] at hrest
              subst hrest
              simp only [List.length_cons] at hn
              obtain ⟨l, e, r, h1, h2, h3⟩ := ih rest2 (by omega)
              refine ⟨l, e, r, ?_, h2, ?_⟩
              · simp [skipEmptyLines, readLine, splitLine, normalizeNL, lengthNL, h1]
              · rw [onlyEmptyLines_cr_nl]
                exact h3

theorem read_in_memory (data : List Char) (parsed : Parsed)
    (h : Reader.Read ⟨data, none⟩ = some parsed) :
    parsed.err ≠ none ↔ onlyEmptyLines data = true := by
  obtain ⟨line, e, r, hskip, hfail, hcase⟩ :=
    skipEmptyLines_spec (data.length + 2) data (by omega)
  unfold Reader.Read readRecord at h
  simp only [hskip] at h
  rcases hcase with ⟨he, hempty⟩ | ⟨he, hempty⟩
  · subst he
    simp only [if_true, Option.some.injEq] at h
    subst h
    simp [hempty]
  · subst he
    simp only [reduceCtorEq, if_false] at h
    have := parseLoop_clean _ _ _ rfl hfail h
    simp [this, hempty]

theorem read_failure (data : List Char) (e : String) (parsed : Parsed) (hnl : '\n' ∉ data)
    (h : Reader.Read ⟨data, some e⟩ = some parsed) : parsed.err = some (.failed e) := by
  unfold Reader.Read readRecord at h
  have hread : readLine ⟨data, some e⟩
      = (normalizeNL data, some (.failed e), ⟨[], some e⟩) := by
    simp [readLine, splitLine_of_not_mem hnl]
  simp only [skipEmptyLines, hread, reduceCtorEq, false_and, if_false, ReadErr.failed.injEq,
    Option.some.injEq] at h
  exact parseLoop_failed _ _ _ _ rfl h

/-- C15. The function `GetFileColumns` always returns, and it fails exactly when the
read of the first record fails. On the empty input it returns `io.EOF`; whenever it
returns an error the column list is `nil` and the delimiter is the empty string;
whenever it returns no error the column list is the first record with each field
stripped. For an input without read failure the error arises exactly when the text
holds no line that is not empty, that is, no first record; and a read failure met
while the first line is read is returned as the error. -/
theorem fails_without_first_record (file : Stream) :
    GetFileColumns ⟨[], none⟩ = some ⟨[], "", some .eof⟩ ∧
    ∃ r, GetFileColumns file = some r ∧
      (r.err ≠ none → r.columns = [] ∧ r.delimiter = "") ∧
      (r.err ≠ none ↔ ∃ parsed, Reader.Read file = some parsed ∧ parsed.err ≠ none) ∧
      (r.err = none → ∃ parsed, Reader.Read file = some parsed ∧ parsed.err = none ∧
        r.columns = parsed.fields.map (fun col => TrimLeft ⟨col⟩ "\uFEFF ")) ∧
      (file.fail = none → (r.err ≠ none ↔ onlyEmptyLines file.data = true)) ∧
      (∀ e, file.fail = some e → '\n' ∉ file.data → r.err = some (.failed e)) := by
  refine ⟨by decide, ?_⟩
  obtain ⟨parsed, hread⟩ := Option.isSome_iff_exists.1 (Read_isSome file)
  have hmem : ∀ (data : List Char), file.fail = none → file.data = data →
      (parsed.err ≠ none ↔ onlyEmptyLines data = true) := by
    intro data hf hd
    apply read_in_memory data parsed
    rw [← hread, ← hd, ← hf]
  have hfailure : ∀ e, file.fail = some e → '\n' ∉ file.data →
      parsed.err = some (.failed e) := by
    intro e hf hnl
    apply read_failure file.data e parsed hnl
    rw [← hread, ← hf]
  by_cases herr : parsed.err = none
  · refine ⟨⟨parsed.fields.map (fun col => TrimLeft ⟨col⟩ "\uFEFF "),
      String.singleton Reader.Comma, none⟩, ?_, ?_, ?_, ?_, ?_, ?_⟩
    · simp [GetFileColumns, hread, herr]
    · intro h
      exact absurd rfl h
    · constructor
      · intro h
        exact absurd rfl h
      · rintro ⟨p, hp, hperr⟩
        rw [hread] at hp
        rw [← Option.some.inj hp] at hperr
        exact absurd herr hperr
    · intro _
      exact ⟨parsed, hread, herr, rfl⟩
    · intro hf
      rw [← hmem file.data hf rfl]
      simp [herr]
    · intro e hf hnl
      rw [hfailure e hf hnl] at herr
      cases herr
  · refine ⟨⟨[], "", parsed.err⟩, ?_, ?_, ?_, ?_, ?_, ?_⟩
    · simp [GetFileColumns, hread, herr]
    · intro _
      exact ⟨rfl, rfl⟩
    · constructor
      · intro _
        exact ⟨parsed, hread, herr⟩
      · intro _
        exact herr
    · intro h
      exact absurd h herr
    · intro hf
      exact hmem file.data hf rfl
    · intro e hf hnl
      exact hfailure e hf hnl

end Xes
